import Mathlib

/-!
Verification development for the grammar-representation and nullable-analysis
core of the `bongo` repository (`src/bongo/src/grammar.rs`,
`src/bongo/src/grammar/nullables.rs`).

Shallow-embedding conventions:
* The Rust code is generic over an `ElementTypes` family.  Terminal
  identifiers, nonterminal identifiers, action keys and binding names
  (`Name`) are all `Ord + Eq` value types; we embed each of them as `Nat`.
  The action-value type has no equality/ordering bound and stays a Lean type
  parameter `α` throughout.
* `BTreeMap k v` is embedded as a `List (k × v)` whose keys are strictly
  sorted; `BTreeSet k` as a strictly sorted `List k`.  Insertion keeps the
  list sorted and replaces on an equal key, exactly as `BTreeMap::insert`.
* `ProdRef` in Rust compares its `prod` field by reference address
  (`RefCompare`).  Inside one grammar a production is identified by its
  head nonterminal together with its position in the owning rule's `prods`
  vector, and addresses inside one `Vec` are ordered by index; we embed the
  production reference as that index (`idx`).  The `grammar` back reference
  (`ParentRef`) carries no data and always compares `Equal` between views of
  the same grammar (the only case the claims are about), so it is not a
  field of the embedded structure.
* A Rust `panic!`/`unwrap` failure and a diverging loop are both embedded as
  the `none` value of an `Option`-returning function.
-/

namespace Bongo

/-- Key-sorted association list lookup, embedding `BTreeMap::get`. -/
def lookupA {β : Type _} (k : Nat) : List (Nat × β) → Option β
  | [] => none
  | e :: rest => if e.1 = k then some e.2 else lookupA k rest

/-- Key-sorted association list insert, embedding `BTreeMap::insert`: keeps
keys strictly sorted and replaces the value on an equal key. -/
def insertA {β : Type _} (k : Nat) (v : β) : List (Nat × β) → List (Nat × β)
  | [] => [(k, v)]
  | e :: rest =>
    if k < e.1 then (k, v) :: e :: rest
    else if k = e.1 then (k, v) :: rest
    else e :: insertA k v rest

/-- Sorted-set insert, embedding `BTreeSet::insert` for `Nat` elements. -/
def insertS (k : Nat) : List Nat → List Nat
  | [] => [k]
  | x :: rest =>
    if k < x then k :: x :: rest
    else if k = x then x :: rest
    else x :: insertS k rest

/-- Collecting an iterator into a `BTreeSet`, i.e. inserting every element of
the list in order. -/
def toSetS (l : List Nat) : List Nat :=
  l.foldl (fun s x => insertS x s) []

/-- Strict sortedness of a map's keys (the `BTreeMap` data invariant). -/
abbrev keysSorted {β : Type _} (l : List (Nat × β)) : Prop :=
  l.Pairwise (fun a b => a.1 < b.1)

/-- Strict sortedness of a set (the `BTreeSet` data invariant). -/
abbrev setSorted (l : List Nat) : Prop :=
  l.Pairwise (· < ·)

/-- Embedding of `Element`: a tagged union of terminal / nonterminal. -/
inductive Element where
  | Term (t : Nat)
  | NonTerm (nt : Nat)
deriving DecidableEq, Repr

/-- Embedding of `ProductionElement`: an element with an optional binding
name (`identifier`). -/
structure ProductionElement where
  identifier : Option Nat
  element : Element
deriving DecidableEq, Repr

/-- Embedding of `Production`: an action key plus the ordered right-hand
side. -/
structure Production where
  action_key : Nat
  elements : List ProductionElement
deriving DecidableEq, Repr

/-- Embedding of `Rule`: a head nonterminal plus its productions. -/
structure Rule where
  head : Nat
  prods : List Production
deriving DecidableEq, Repr

/-- Embedding of `Grammar`: start symbol, nonterminal-to-rule map and
action-key-to-action-value map, as in `grammar.rs`. -/
structure Grammar (α : Type _) where
  start_symbol : Nat
  rule_set : List (Nat × Rule)
  action_map : List (Nat × α)

/-- Embedding of `ProdKey`: the (head, action key) pair naming a
production. -/
structure ProdKey where
  head : Nat
  action_key : Nat
deriving DecidableEq, Repr

/-- Embedding of `ProdRef`.  `idx` embeds the `RefCompare`d production
pointer (position inside the owning rule's `prods` vector); `action_value`
is the `NoCompare` payload resolved from the grammar's action map (`none`
embeds the state in which the Rust `unwrap` in `RuleRef::prods` would have
panicked).  The `ParentRef` grammar back reference is omitted as explained
in the file header. -/
structure ProdRef (α : Type _) where
  head : Nat
  idx : Nat
  prod : Production
  action_value : Option α

/-- Embedding of the derived `PartialEq` on `ProdRef`: `ParentRef` compares
true (asserting same parent), `head` by value, `prod` by reference
(`RefCompare`, i.e. by `idx`), and `action_value` not at all
(`NoCompare`). -/
def ProdRef.beq {α : Type _} (a b : ProdRef α) : Bool :=
  (true && (a.head == b.head)) && (a.idx == b.idx) && true

/-- Embedding of the derived `Ord` on `ProdRef`: the lexicographic chain of
the component orderings, where `ParentRef` and `NoCompare` both contribute
`Ordering::Equal`. -/
def ProdRef.cmp {α : Type _} (a b : ProdRef α) : Ordering :=
  Ordering.eq.then ((compare a.head b.head).then
    ((compare a.idx b.idx).then Ordering.eq))

/-- Embedding of `ProdRef::prod_key` (present in src only as
`ProdAndHead::key`, which builds the same pair from the head and the
production's action key). -/
def ProdRef.prod_key {α : Type _} (p : ProdRef α) : ProdKey :=
  { head := p.head, action_key := p.prod.action_key }

/-- Embedding of `RuleRef`: grammar back reference, head, and the rule's
production list. -/
structure RuleRef (α : Type _) where
  grammar : Grammar α
  head : Nat
  prods : List Production

/-- Embedding of `RuleRef::prods`: builds a `ProdRef` for each production,
resolving the action value with `action_map.get(..).unwrap()`.  The `unwrap`
panic on a missing action key is embedded as `none`. -/
def RuleRef.prodRefs {α : Type _} (r : RuleRef α) : Option (List (ProdRef α)) :=
  (r.prods.enum).mapM fun ip =>
    (lookupA ip.2.action_key r.grammar.action_map).map fun av =>
      { head := r.head, idx := ip.1, prod := ip.2, action_value := some av }

/-- Embedding of `Grammar::prods` (the production enumeration consumed by
`inner_calculate_nullables`; its body is not under src/, but src's
`Grammar::prod_and_heads` performs the same enumeration of the key-sorted
rule map, and `RuleRef::prods` shows how each `ProdRef` is built).  The
action value is resolved leniently here (`Option`); the panicking resolution
is modelled faithfully by `RuleRef.prodRefs`. -/
def Grammar.prods {α : Type _} (g : Grammar α) : List (ProdRef α) :=
  g.rule_set.foldr
    (fun e acc =>
      ((e.2.prods.enum).map fun ip =>
        { head := e.1, idx := ip.1, prod := ip.2,
          action_value := lookupA ip.2.action_key g.action_map }) ++ acc)
    []

/-- Right-hand-side elements of the whole grammar in `get_elements` order
(values of the key-sorted rule map, each rule's productions in order). -/
def Grammar.get_elements {α : Type _} (g : Grammar α) : List Element :=
  g.rule_set.foldr
    (fun e acc =>
      (e.2.prods.foldr (fun p acc2 => p.elements.map (·.element) ++ acc2) []) ++ acc)
    []

/-- Embedding of `Grammar::get_nonterminals`: the nonterminals among the
right-hand-side elements (rule heads are *not* included). -/
def Grammar.get_nonterminals {α : Type _} (g : Grammar α) : List Nat :=
  g.get_elements.filterMap fun e =>
    match e with
    | Element.Term _ => none
    | Element.NonTerm nt => some nt

/-- Embedding of `Grammar::nonterminals_without_rules`. -/
def Grammar.nonterminals_without_rules {α : Type _} (g : Grammar α) : List Nat :=
  toSetS (g.get_nonterminals.filter fun nt => (lookupA nt g.rule_set).isNone)

/-- Embedding of `Grammar::rules_without_prods`: heads of rules with an
empty production list. -/
def Grammar.rules_without_prods {α : Type _} (g : Grammar α) : List Nat :=
  toSetS (g.rule_set.filterMap fun e =>
    if e.2.prods.isEmpty then some e.2.head else none)

/-- Successor nonterminals of one nonterminal: the right-hand-side
nonterminals of its rule, or nothing if it has no rule (the closure used by
`Grammar::reachable_nonterms`). -/
def Grammar.nextNonterms {α : Type _} (g : Grammar α) (nt : Nat) : List Nat :=
  match lookupA nt g.rule_set with
  | some r =>
    r.prods.foldr
      (fun p acc =>
        (p.elements.filterMap fun pe =>
          match pe.element with
          | Element.Term _ => none
          | Element.NonTerm nt2 => some nt2) ++ acc)
      []
  | none => []

/-- One saturation step of the reachability closure: add every successor of
every visited nonterminal. -/
def reachStep {α : Type _} (g : Grammar α) (visited : List Nat) : List Nat :=
  visited.foldl
    (fun acc nt => (g.nextNonterms nt).foldl (fun a n => insertS n a) acc)
    visited

/-- Fuelled saturation loop for reachability. -/
def reachLoop {α : Type _} (g : Grammar α) : Nat → List Nat → List Nat
  | 0, v => v
  | fuel + 1, v =>
    let v2 := reachStep g v
    if v2 = v then v else reachLoop g fuel v2

/-- Modelled from the spec: `Grammar::reachable_nonterms` calls
`breadth_first_search` from the `utils` module, which is not under src/.
Per §3 of the spec it computes every nonterminal reachable from the start
symbol by repeatedly expanding right-hand sides; we embed it as the
saturation of `reachStep` from the start symbol, run with enough fuel to
reach the fixpoint. -/
def Grammar.reachable_nonterms {α : Type _} (g : Grammar α) : List Nat :=
  reachLoop g (g.get_nonterminals.length + 1) (insertS g.start_symbol [])

/-- Embedding of `Grammar::unreachable_nonterms`: right-hand-side
nonterminals not in the reachable set. -/
def Grammar.unreachable_nonterms {α : Type _} (g : Grammar α) : List Nat :=
  toSetS (g.get_nonterminals.filter fun nt =>
    !(g.reachable_nonterms.contains nt))

/-- Embedding of `GrammarErrors`: the three structural defect sets. -/
structure GrammarErrors where
  unreachable_nonterms : List Nat
  nonterms_without_rules : List Nat
  rules_without_prods : List Nat
deriving DecidableEq, Repr

/-- Embedding of `GrammarErrors::into_result`. -/
def GrammarErrors.into_result (e : GrammarErrors) : Except GrammarErrors Unit :=
  if e.unreachable_nonterms.isEmpty && e.nonterms_without_rules.isEmpty
      && e.rules_without_prods.isEmpty then
    Except.ok ()
  else
    Except.error e

/-- Embedding of `Grammar::check_grammar`. -/
def Grammar.check_grammar {α : Type _} (g : Grammar α) :
    Except GrammarErrors Unit :=
  GrammarErrors.into_result
    { unreachable_nonterms := g.unreachable_nonterms
      nonterms_without_rules := g.nonterminals_without_rules
      rules_without_prods := g.rules_without_prods }

/-- The grammar value `Grammar::new` assembles before validating: the rules
collected into the key-sorted rule map (later rules with the same head
replace earlier ones, as with `Iterator::collect::<BTreeMap<_, _>>`). -/
def Grammar.build {α : Type _} (start : Nat) (rules : List Rule)
    (action_map : List (Nat × α)) : Grammar α :=
  { start_symbol := start
    rule_set := rules.foldl (fun m r => insertA r.head r m) []
    action_map := action_map }

/-- Embedding of `Grammar::new`: assemble the grammar, then validate. -/
def Grammar.new {α : Type _} (start : Nat) (rules : List Rule)
    (action_map : List (Nat × α)) : Except GrammarErrors (Grammar α) :=
  ((Grammar.build start rules action_map).check_grammar).map fun _ =>
    Grammar.build start rules action_map

/-! ## Nullable-set fixpoint engine (`grammar/nullables.rs`) -/

/-- Embedding of `is_prod_nullable`: a production is nullable w.r.t. the
current map iff every right-hand-side element is a nonterminal already in
the map (a terminal anywhere makes it non-nullable). -/
def is_prod_nullable {α β : Type _} (nullables : List (Nat × β))
    (prod : ProdRef α) : Bool :=
  prod.prod.elements.all fun pe =>
    match pe.element with
    | Element.Term _ => false
    | Element.NonTerm nt => (lookupA nt nullables).isSome

/-- Pass-1 state: the map from nonterminal to the `BTreeSet` of its
productions known nullable (`InternalNullableInfo::nullable_actions`).
Inside one entry every stored `ProdRef` has that entry's key as head, so the
`ProdRef` ordering reduces to the `idx` ordering, and the per-entry set is a
list strictly sorted by `idx`. -/
abbrev NullState (α : Type _) : Type _ := List (Nat × List (ProdRef α))

/-- Insert a `ProdRef` into one entry's sorted set; returns the new set and
whether the element was new (the return value of `BTreeSet::insert`, which
compares with the `ProdRef` ordering, i.e. by `idx` within one head). -/
def insertEvidence {α : Type _} (p : ProdRef α) :
    List (ProdRef α) → List (ProdRef α) × Bool
  | [] => ([p], true)
  | q :: rest =>
    if p.idx < q.idx then (p :: q :: rest, true)
    else if p.idx = q.idx then (q :: rest, false)
    else
      let r := insertEvidence p rest
      (q :: r.1, r.2)

/-- Record one production as nullable evidence for its head
(`entry(..).or_insert_with(..)` followed by `nullable_actions.insert`);
returns the updated state and the `insert` return value. -/
def addEvidence {α : Type _} (m : NullState α) (p : ProdRef α) :
    NullState α × Bool :=
  match lookupA p.head m with
  | none => (insertA p.head [p] m, true)
  | some l =>
    let r := insertEvidence p l
    (insertA p.head r.1 m, r.2)

/-- Body of the pass-1 `for` loop: if the production is nullable w.r.t. the
evolving map, record it and accumulate the `changed` flag. -/
def passOne {α : Type _} (mc : NullState α × Bool) (p : ProdRef α) :
    NullState α × Bool :=
  if is_prod_nullable mc.1 p then
    let r := addEvidence mc.1 p
    (r.1, mc.2 || r.2)
  else mc

/-- One full pass of the pass-1 loop body: for every production, if it is
nullable w.r.t. the evolving map, record it; the Bool is the `changed`
flag. -/
def passStep {α : Type _} (prods : List (ProdRef α)) (m : NullState α) :
    NullState α × Bool :=
  prods.foldl passOne (m, false)

/-- Fuelled embedding of the pass-1 `loop`: run passes until one adds no new
evidence.  The fuel given by `inner_calculate_nullables` always suffices (see
the termination theorem). -/
def innerLoop {α : Type _} (prods : List (ProdRef α)) :
    Nat → NullState α → NullState α
  | 0, m => m
  | fuel + 1, m =>
    let r := passStep prods m
    if r.2 then innerLoop prods fuel r.1 else r.1

/-- Pass 1 on an explicit production list (the list `g.prods()` is collected
into at the top of `inner_calculate_nullables`). -/
def inner_calculate_from {α : Type _} (prods : List (ProdRef α)) :
    NullState α :=
  innerLoop prods (prods.length + 1) []

/-- Embedding of `inner_calculate_nullables`. -/
def inner_calculate_nullables {α : Type _} (g : Grammar α) : NullState α :=
  inner_calculate_from g.prods

/-- Embedding of `NullableError` (single variant). -/
inductive NullableError where
  | NullableAmbiguity
deriving DecidableEq, Repr

/-- Modelled from the spec: the witness tree type `TreeNode<ProdKey, Void>`
lives in the `utils` module, which is not under src/.  Per §4.3/§9 of the
spec a witness tree is a node label (the `ProdKey`) plus a mapping from
child binding name to child witness tree; `TreeValue::Leaf` carries a `Void`
value and is therefore uninhabited, so every field is a node. -/
inductive TreeNode where
  | mk (key : ProdKey) (fields : List (Nat × TreeNode))

/-- Node label of a witness tree. -/
def TreeNode.key : TreeNode → ProdKey
  | TreeNode.mk k _ => k

/-- Child map of a witness tree. -/
def TreeNode.fields : TreeNode → List (Nat × TreeNode)
  | TreeNode.mk _ f => f

/-- Embedding of the field-collection loop inside pass 2: walk the unique
nullable production's elements left to right; a named nonterminal element
whose witness is not yet in `infos` aborts this nonterminal's build for
this pass (`continue 'outer`, embedded as `none`); otherwise each named
nonterminal element inserts its witness under its binding name (a later
duplicate binding name replaces an earlier one, as `BTreeMap::insert`
does). -/
def buildFieldsAux (infos : List (Nat × TreeNode))
    (acc : List (Nat × TreeNode)) :
    List ProductionElement → Option (List (Nat × TreeNode))
  | [] => some acc
  | pe :: rest =>
    match pe.identifier, pe.element with
    | some id, Element.NonTerm nt =>
      match lookupA nt infos with
      | none => none
      | some t => buildFieldsAux infos (insertA id t acc) rest
    | _, _ => buildFieldsAux infos acc rest

/-- The field-collection loop, started from an empty field map. -/
def buildFields (infos : List (Nat × TreeNode))
    (elems : List ProductionElement) : Option (List (Nat × TreeNode)) :=
  buildFieldsAux infos [] elems

/-- One iteration of the pass-2 `loop` body: try to build a witness for
every remaining nullable nonterminal, in ascending order, against the
evolving `nullable_infos` map.  The `nullable_action_map.get(..).unwrap()`
cannot fail (remaining nonterminals are always keys of that map); a `none`
lookup is embedded as a skip. -/
def pass2once {α : Type _} (amap : List (Nat × ProdRef α))
    (remaining : List Nat) (infos : List (Nat × TreeNode)) :
    List (Nat × TreeNode) :=
  remaining.foldl
    (fun infos2 nt =>
      match lookupA nt amap with
      | none => infos2
      | some p =>
        match buildFields infos2 p.prod.elements with
        | none => infos2
        | some fields =>
          insertA nt (TreeNode.mk p.prod_key fields) infos2)
    infos

/-- Fuelled embedding of the pass-2 `loop`: after each pass, remove every
built nonterminal from the remaining set and stop when it is empty.  Fuel
exhaustion (`none`) embeds the divergence the Rust loop would exhibit if a
pass ever made no progress. -/
def pass2loop {α : Type _} (amap : List (Nat × ProdRef α)) :
    Nat → List Nat → List (Nat × TreeNode) → Option (List (Nat × TreeNode))
  | 0, _, _ => none
  | fuel + 1, remaining, infos =>
    let infos2 := pass2once amap remaining infos
    let remaining2 := remaining.filter fun nt => (lookupA nt infos2).isNone
    if remaining2.isEmpty then some infos2
    else pass2loop amap fuel remaining2 infos2

/-- The `nullable_action_map` of pass 2: each pass-1 entry mapped to its
single evidence production (`get_only`; at this point every entry's set has
exactly one element). -/
def amapOf {α : Type _} (inner : NullState α) : List (Nat × ProdRef α) :=
  inner.filterMap fun e => (e.2.head?).map fun p => (e.1, p)

/-- Embedding of `calculate_nullables`, factored over an explicit production
list.  The outer `Option` embeds the two panics (`get_only` / the
`Unexpectedly empty nullable action!` check, and pass-2 divergence); the
`Except` carries the `NullableAmbiguity` error.  The sanity check walks the
pass-1 entries in key order and acts on the first entry whose evidence set
does not have exactly one element, exactly as the Rust `for` loop. -/
def calculate_nullables_from {α : Type _} (prods : List (ProdRef α)) :
    Option (Except NullableError (List (Nat × TreeNode))) :=
  let inner := inner_calculate_from prods
  match inner.find? fun e => e.2.length != 1 with
  | some e =>
    if e.2.length = 0 then none
    else some (Except.error NullableError.NullableAmbiguity)
  | none =>
    let remaining : List Nat := inner.map (·.1)
    match pass2loop (amapOf inner) (remaining.length + 1) remaining [] with
    | none => none
    | some infos => some (Except.ok infos)

/-- Embedding of `calculate_nullables`. -/
def calculate_nullables {α : Type _} (g : Grammar α) :
    Option (Except NullableError (List (Nat × TreeNode))) :=
  calculate_nullables_from g.prods

/-! ## Specification-level predicates -/

/-- Reachability as the spec states it: a nonterminal is reachable iff it is
the start symbol or occurs on the right-hand side of some production of a
reachable nonterminal's rule. -/
inductive ReachG {α : Type _} (g : Grammar α) : Nat → Prop where
  | start : ReachG g g.start_symbol
  | step (nt nt2 : Nat) (r : Rule) (p : Production) (pe : ProductionElement) :
      ReachG g nt → lookupA nt g.rule_set = some r → p ∈ r.prods →
      pe ∈ p.elements → pe.element = Element.NonTerm nt2 → ReachG g nt2

/-- Nullability as the spec states it: a nonterminal is nullable iff at
least one production of its rule has every right-hand-side element a
(transitively) nullable nonterminal; a production with an empty right-hand
side is trivially nullable and one containing a terminal never is. -/
inductive NullableG {α : Type _} (g : Grammar α) : Nat → Prop where
  | mk (nt : Nat) (r : Rule) (i : Nat) (p : Production)
      (hr : lookupA nt g.rule_set = some r) (hp : r.prods[i]? = some p)
      (hterm : ∀ pe ∈ p.elements, ∀ t, pe.element ≠ Element.Term t)
      (hnull : ∀ pe ∈ p.elements, ∀ nt2,
        pe.element = Element.NonTerm nt2 → NullableG g nt2) :
      NullableG g nt

/-- A production all of whose right-hand-side elements are (transitively)
nullable nonterminals. -/
def ProdNullableG {α : Type _} (g : Grammar α) (p : Production) : Prop :=
  ∀ pe ∈ p.elements, ∃ nt2, pe.element = Element.NonTerm nt2 ∧ NullableG g nt2

/-- Well-formedness carried by every `Grammar` built through
`Grammar::new`: the rule map's keys are strictly sorted (the `BTreeMap`
invariant) and each rule is stored under its own head. -/
abbrev Grammar.WF {α : Type _} (g : Grammar α) : Prop :=
  keysSorted g.rule_set ∧ ∀ e ∈ g.rule_set, e.2.head = e.1

/-! ## Concrete example grammars used in claim theorems and witnesses -/

/-- First rule for head 0 in the duplicate-head example. -/
def ruleC9a : Rule := Rule.mk 0 [Production.mk 100 []]

/-- Second rule for head 0 in the duplicate-head example. -/
def ruleC9b : Rule := Rule.mk 0 [Production.mk 101 []]

/-- The grammar the duplicate-head example produces. -/
def gC9 : Grammar Unit :=
  { start_symbol := 0, rule_set := [(0, ruleC9b)], action_map := [] }

/-- Rule whose single production's action key (5) has no action-map
entry. -/
def ruleC10 : Rule := Rule.mk 0 [Production.mk 5 []]

/-- The grammar of the missing-action-key example: its action map is
empty. -/
def gC10 : Grammar Unit :=
  { start_symbol := 0, rule_set := [(0, ruleC10)], action_map := [] }

/-- Counterexample grammar for C5: nonterminal 1 appears as a rule head,
is unreachable from the start symbol 0, and occurs in no right-hand side. -/
def gC5 : Grammar Unit :=
  { start_symbol := 0
    rule_set :=
      [(0, Rule.mk 0 [Production.mk 100 []]),
       (1, Rule.mk 1 [Production.mk 101 [ProductionElement.mk none (Element.Term 7)]])]
    action_map := [(100, ()), (101, ())] }

/-! ## Proof-support definitions -/

/-- Strict sortedness of one pass-1 evidence set by production index (the
`BTreeSet<ProdRef>` invariant within one head). -/
def sortedByIdx {α : Type _} (l : List (ProdRef α)) : Prop :=
  l.Pairwise (fun a b => a.idx < b.idx)

/-- Membership of a production view in the pass-1 state. -/
def evMem {α : Type _} (p : ProdRef α) (m : NullState α) : Prop :=
  ∃ l, lookupA p.head m = some l ∧ p ∈ l

/-- Nullability relative to an explicit production enumeration: the head of
a listed production all of whose right-hand-side elements are nullable
nonterminals is nullable. -/
inductive NullableL {α : Type _} (prods : List (ProdRef α)) : Nat → Prop where
  | mk (p : ProdRef α) (hp : p ∈ prods)
      (hterm : ∀ pe ∈ p.prod.elements, ∀ t, pe.element ≠ Element.Term t)
      (hnull : ∀ pe ∈ p.prod.elements, ∀ nt2,
        pe.element = Element.NonTerm nt2 → NullableL prods nt2) :
      NullableL prods p.head

/-- A listed production all of whose elements are nullable nonterminals. -/
def ProdNullableL {α : Type _} (prods : List (ProdRef α)) (p : ProdRef α) :
    Prop :=
  (∀ pe ∈ p.prod.elements, ∀ t, pe.element ≠ Element.Term t) ∧
  (∀ pe ∈ p.prod.elements, ∀ nt2,
    pe.element = Element.NonTerm nt2 → NullableL prods nt2)

/-- Nullability graded by derivation depth, used to order pass-2 witness
construction. -/
def NullableLN {α : Type _} (prods : List (ProdRef α)) : Nat → Nat → Prop
  | 0 => fun _ => False
  | n + 1 => fun nt =>
    ∃ p ∈ prods, ProdRef.head p = nt ∧
      ∀ pe ∈ (ProdRef.prod p).elements, ∃ nt2,
        pe.element = Element.NonTerm nt2 ∧ NullableLN prods n nt2

/-- The (head, idx) identities of a production enumeration. -/
def prodIds {α : Type _} (prods : List (ProdRef α)) : List (Nat × Nat) :=
  prods.map fun p => (p.head, p.idx)

/-- The (head, idx) identities stored in a pass-1 state. -/
def stateIds {α : Type _} (m : NullState α) : List (Nat × Nat) :=
  m.foldr (fun e acc => (e.2.map fun p => (e.1, p.idx)) ++ acc) []

/-- Total number of evidence records in a pass-1 state. -/
def stateSize {α : Type _} (m : NullState α) : Nat :=
  (m.map fun e => e.2.length).sum

/-- Data invariant of the pass-1 state, relative to the production
enumeration `prods` it is being computed from: keys are sorted, every
evidence set is sorted, nonempty, holds productions of its own key only,
holds only listed productions, and holds only productions all of whose
elements are nullable nonterminals (soundness). -/
structure SInv {α : Type _} (prods : List (ProdRef α)) (m : NullState α) :
    Prop where
  skeys : keysSorted m
  svals : ∀ e ∈ m, sortedByIdx e.2
  sheads : ∀ e ∈ m, ∀ p ∈ e.2, ProdRef.head p = e.1
  sprods : ∀ e ∈ m, ∀ p ∈ e.2, p ∈ prods
  snonempty : ∀ e ∈ m, e.2 ≠ []
  ssound : ∀ e ∈ m, ∀ p ∈ e.2, ProdNullableL prods p

/-- One step of the spec-level field-map construction: a named nonterminal
element whose witness is in `tbl` binds that witness under its name;
everything else contributes nothing. -/
def specFieldStep (tbl : List (Nat × TreeNode))
    (fs : List (Nat × TreeNode)) (pe : ProductionElement) :
    List (Nat × TreeNode) :=
  match pe.identifier, pe.element with
  | some id, Element.NonTerm nt =>
    match lookupA nt tbl with
    | some t => insertA id t fs
    | none => fs
  | _, _ => fs

/-- The field map the spec ascribes to a witness tree: walk the production's
elements in order and bind, under its binding name, the witness tree of
every named nonterminal element (unnamed elements and named terminal
elements contribute nothing; a later element with the same binding name
replaces an earlier one, as `BTreeMap::insert` does). -/
def specFields (tbl : List (Nat × TreeNode)) (elems : List ProductionElement) :
    List (Nat × TreeNode) :=
  elems.foldl (specFieldStep tbl) []

/-- Shape of one witness-table entry relative to the singleton action map
`amap` and the table `tbl` it lives in: the entry's tree is labelled with
its production's `ProdKey`, its field map is exactly the spec field map of
that production's elements read off `tbl`, and every named nonterminal
element of that production has a witness in `tbl`. -/
def TreeShape {α : Type _} (amap : List (Nat × ProdRef α))
    (tbl : List (Nat × TreeNode)) (e : Nat × TreeNode) : Prop :=
  ∃ p, lookupA e.1 amap = some p ∧
    e.2 = TreeNode.mk (ProdRef.prod_key p)
      (specFields tbl (ProdRef.prod p).elements) ∧
    ∀ pe ∈ (ProdRef.prod p).elements, ∀ id nt2, pe.identifier = some id →
      pe.element = Element.NonTerm nt2 → (lookupA nt2 tbl).isSome

/-- Invariant of the pass-2 worklist loop, relative to the singleton action
map `amap` taken from the pass-1 result and the production enumeration
`prods`. -/
structure P2Inv {α : Type _} (prods : List (ProdRef α))
    (amap : List (Nat × ProdRef α)) (remaining : List Nat)
    (infos : List (Nat × TreeNode)) : Prop where
  rsorted : setSorted remaining
  isorted : keysSorted infos
  rnull : ∀ nt ∈ remaining, ∃ n, NullableLN prods n nt
  rkeys : ∀ nt ∈ remaining, (lookupA nt amap).isSome
  rfresh : ∀ nt ∈ remaining, lookupA nt infos = none
  covered : ∀ nt, (lookupA nt amap).isSome → nt ∉ remaining →
    (lookupA nt infos).isSome
  ikeys : ∀ nt, (lookupA nt infos).isSome → (lookupA nt amap).isSome
  ishape : ∀ e ∈ infos, TreeShape amap infos e

/-- Structural-defect predicate, as the spec states it: a nonterminal that
occurs on some right-hand side but has no rule. -/
def DefMissing {α : Type _} (g : Grammar α) (nt : Nat) : Prop :=
  nt ∈ g.get_nonterminals ∧ lookupA nt g.rule_set = none

/-- Structural-defect predicate, as the spec states it: a rule with zero
productions (named by its head). -/
def DefEmpty {α : Type _} (g : Grammar α) (nt : Nat) : Prop :=
  ∃ e ∈ g.rule_set, e.2.prods = [] ∧ e.2.head = nt

/-- Structural-defect predicate, as the spec states it: a nonterminal that
occurs on some right-hand side but is not reachable from the start
symbol. -/
def DefUnreach {α : Type _} (g : Grammar α) (nt : Nat) : Prop :=
  nt ∈ g.get_nonterminals ∧ ¬ ReachG g nt

/-! ## Example grammars for claim witnesses -/

/-- Rules of the chain grammar of spec scenario 3:
`start(0) → a(1)`, `a → b(2)`, `b → c(3)`, `c → ε`, every right-hand-side
nonterminal carrying a binding name. -/
def rulesChain : List Rule :=
  [ Rule.mk 0 [Production.mk 100 [ProductionElement.mk (some 10) (Element.NonTerm 1)]],
    Rule.mk 1 [Production.mk 101 [ProductionElement.mk (some 11) (Element.NonTerm 2)]],
    Rule.mk 2 [Production.mk 102 [ProductionElement.mk (some 12) (Element.NonTerm 3)]],
    Rule.mk 3 [Production.mk 103 []] ]

/-- The chain grammar itself (action values `Unit`). -/
def gChain : Grammar Unit :=
  { start_symbol := 0
    rule_set :=
      [ (0, Rule.mk 0 [Production.mk 100 [ProductionElement.mk (some 10) (Element.NonTerm 1)]]),
        (1, Rule.mk 1 [Production.mk 101 [ProductionElement.mk (some 11) (Element.NonTerm 2)]]),
        (2, Rule.mk 2 [Production.mk 102 [ProductionElement.mk (some 12) (Element.NonTerm 3)]]),
        (3, Rule.mk 3 [Production.mk 103 []]) ]
    action_map := [(100, ()), (101, ()), (102, ()), (103, ())] }

/-- The ambiguous-nullable grammar of spec scenario 4:
`X(0) → Y(1) | Z(2)`, `Y → ε`, `Z → ε`. -/
def gAmb : Grammar Unit :=
  { start_symbol := 0
    rule_set :=
      [ (0, Rule.mk 0
          [ Production.mk 100 [ProductionElement.mk none (Element.NonTerm 1)],
            Production.mk 101 [ProductionElement.mk none (Element.NonTerm 2)] ]),
        (1, Rule.mk 1 [Production.mk 102 []]),
        (2, Rule.mk 2 [Production.mk 103 []]) ]
    action_map := [(100, ()), (101, ()), (102, ()), (103, ())] }

/-- Witness tree of nonterminal 3 in the chain grammar. -/
def t3Chain : TreeNode := TreeNode.mk (ProdKey.mk 3 103) []

/-- Witness tree of nonterminal 2 in the chain grammar. -/
def t2Chain : TreeNode := TreeNode.mk (ProdKey.mk 2 102) [(12, t3Chain)]

/-- Witness tree of nonterminal 1 in the chain grammar. -/
def t1Chain : TreeNode := TreeNode.mk (ProdKey.mk 1 101) [(11, t2Chain)]

/-- Witness tree of the start nonterminal in the chain grammar. -/
def t0Chain : TreeNode := TreeNode.mk (ProdKey.mk 0 100) [(10, t1Chain)]

/-- The full nullability table of the chain grammar. -/
def tblChain : List (Nat × TreeNode) :=
  [(0, t0Chain), (1, t1Chain), (2, t2Chain), (3, t3Chain)]

/-- Input rules for the three-defect validation example: nonterminal 5 is
referenced but has no rule, rule 2 has zero productions, and nonterminal 3
occurs on a right-hand side but is unreachable from start symbol 0. -/
def rulesDefect : List Rule :=
  [ Rule.mk 0 [Production.mk 100 [ProductionElement.mk none (Element.NonTerm 5)]],
    Rule.mk 2 [],
    Rule.mk 3 [Production.mk 102 [ProductionElement.mk none (Element.NonTerm 3)]] ]

/-! ## Theorems -/

/-! ### Sorted association-list and sorted-set library -/

theorem lookupA_mem {β : Type _} {k : Nat} {v : β} :
    ∀ {l : List (Nat × β)}, lookupA k l = some v → (k, v) ∈ l := by
  intro l
  induction l with
  | nil => intro h; simp [lookupA] at h
  | cons e rest ih =>
    obtain ⟨a, b⟩ := e
    intro h
    by_cases he : a = k
    · subst he
      simp [lookupA] at h
      subst h
      exact List.mem_cons_self _ _
    · simp [lookupA, he] at h
      exact List.mem_cons_of_mem _ (ih h)

theorem lookupA_isSome_iff {β : Type _} {k : Nat} :
    ∀ {l : List (Nat × β)}, (lookupA k l).isSome ↔ ∃ v, (k, v) ∈ l := by
  intro l
  induction l with
  | nil => simp [lookupA]
  | cons e rest ih =>
    obtain ⟨a, b⟩ := e
    by_cases he : a = k
    · subst he
      simp [lookupA]
    · simp only [lookupA, he, if_false, ih]
      constructor
      · rintro ⟨v, hv⟩
        exact ⟨v, List.mem_cons_of_mem _ hv⟩
      · rintro ⟨v, hv⟩
        rcases List.mem_cons.mp hv with h | h
        · cases h
          exact absurd rfl he
        · exact ⟨v, h⟩

theorem mem_lookupA {β : Type _} {k : Nat} {v : β} :
    ∀ {l : List (Nat × β)}, keysSorted l → (k, v) ∈ l →
      lookupA k l = some v := by
  intro l
  induction l with
  | nil => intro _ h; simp at h
  | cons e rest ih =>
    obtain ⟨a, b⟩ := e
    intro hs h
    rcases List.pairwise_cons.mp hs with ⟨hlt, hrest⟩
    rcases List.mem_cons.mp h with h | h
    · cases h
      simp [lookupA]
    · have hne : a ≠ k := Nat.ne_of_lt (hlt _ h)
      simp [lookupA, hne, ih hrest h]

theorem lookupA_insertA_self {β : Type _} (k : Nat) (v : β) :
    ∀ (l : List (Nat × β)), lookupA k (insertA k v l) = some v := by
  intro l
  induction l with
  | nil => simp [insertA, lookupA]
  | cons e rest ih =>
    obtain ⟨a, b⟩ := e
    by_cases h1 : k < a
    · simp [insertA, h1, lookupA]
    · by_cases h2 : k = a
      · simp [insertA, h1, h2, lookupA]
      · have hne : a ≠ k := fun h => h2 h.symm
        simp [insertA, h1, h2, lookupA, hne, ih]

theorem lookupA_insertA_ne {β : Type _} {k k2 : Nat} (v : β) (hne : k2 ≠ k) :
    ∀ (l : List (Nat × β)), lookupA k2 (insertA k v l) = lookupA k2 l := by
  intro l
  induction l with
  | nil => simp [insertA, lookupA, Ne.symm hne]
  | cons e rest ih =>
    obtain ⟨a, b⟩ := e
    by_cases h1 : k < a
    · simp [insertA, h1, lookupA, Ne.symm hne]
    · by_cases h2 : k = a
      · subst h2
        simp [insertA, h1, lookupA, Ne.symm hne]
      · simp only [insertA, h1, if_false, h2, lookupA]
        by_cases h3 : a = k2
        · simp [h3]
        · simp [h3, ih]

theorem mem_insertA {β : Type _} {pr : Nat × β} {k : Nat} {v : β} :
    ∀ {l : List (Nat × β)}, pr ∈ insertA k v l → pr = (k, v) ∨ pr ∈ l := by
  intro l
  induction l with
  | nil => intro h; simp [insertA] at h; exact Or.inl h
  | cons e rest ih =>
    obtain ⟨a, b⟩ := e
    intro h
    by_cases h1 : k < a
    · simp only [insertA, h1, if_true] at h
      rcases List.mem_cons.mp h with h | h
      · exact Or.inl h
      · exact Or.inr h
    · by_cases h2 : k = a
      · subst h2
        simp only [insertA, h1, if_false, if_pos rfl] at h
        rcases List.mem_cons.mp h with h | h
        · exact Or.inl h
        · exact Or.inr (List.mem_cons_of_mem _ h)
      · simp only [insertA, h1, if_false, h2] at h
        rcases List.mem_cons.mp h with h | h
        · exact Or.inr (List.mem_cons.mpr (Or.inl h))
        · rcases ih h with h | h
          · exact Or.inl h
          · exact Or.inr (List.mem_cons_of_mem _ h)

theorem keysSorted_insertA {β : Type _} (k : Nat) (v : β) :
    ∀ {l : List (Nat × β)}, keysSorted l → keysSorted (insertA k v l) := by
  intro l
  induction l with
  | nil => intro _; simp [insertA, keysSorted]
  | cons e rest ih =>
    obtain ⟨a, b⟩ := e
    intro hs
    rcases List.pairwise_cons.mp hs with ⟨hlt, hrest⟩
    by_cases h1 : k < a
    · simp only [insertA, h1, if_true]
      refine List.pairwise_cons.mpr ⟨?_, hs⟩
      intro pr hpr
      rcases List.mem_cons.mp hpr with h | h
      · subst h; exact h1
      · exact Nat.lt_trans h1 (hlt _ h)
    · by_cases h2 : k = a
      · subst h2
        simp only [insertA, h1, if_false, if_pos rfl]
        exact List.pairwise_cons.mpr ⟨hlt, hrest⟩
      · have h3 : a < k := by omega
        simp only [insertA, h1, if_false, h2]
        refine List.pairwise_cons.mpr ⟨?_, ih hrest⟩
        intro pr hpr
        rcases mem_insertA hpr with h | h
        · subst h; exact h3
        · exact hlt _ h

theorem insertA_same {β : Type _} {k : Nat} {v : β} :
    ∀ {l : List (Nat × β)}, keysSorted l → lookupA k l = some v →
      insertA k v l = l := by
  intro l
  induction l with
  | nil => intro _ h; simp [lookupA] at h
  | cons e rest ih =>
    obtain ⟨a, b⟩ := e
    intro hs h
    rcases List.pairwise_cons.mp hs with ⟨hlt, hrest⟩
    by_cases he : a = k
    · subst he
      simp [lookupA] at h
      subst h
      simp [insertA]
    · simp [lookupA, he] at h
      have hkv := lookupA_mem h
      have h3 : a < k := hlt _ hkv
      have h1 : ¬ k < a := by omega
      have h2 : k ≠ a := by omega
      simp [insertA, h1, h2, ih hrest h]

theorem mem_insertS {a k : Nat} :
    ∀ {l : List Nat}, a ∈ insertS k l ↔ a = k ∨ a ∈ l := by
  intro l
  induction l with
  | nil => simp [insertS]
  | cons x rest ih =>
    by_cases h1 : k < x
    · simp [insertS, h1, List.mem_cons]
    · by_cases h2 : k = x
      · subst h2
        simp [insertS, h1, List.mem_cons]
      · simp only [insertS, h1, if_false, h2, List.mem_cons, ih]
        tauto

theorem setSorted_insertS (k : Nat) :
    ∀ {l : List Nat}, setSorted l → setSorted (insertS k l) := by
  intro l
  induction l with
  | nil => intro _; simp [insertS, setSorted]
  | cons x rest ih =>
    intro hs
    rcases List.pairwise_cons.mp hs with ⟨hlt, hrest⟩
    by_cases h1 : k < x
    · simp only [insertS, h1, if_true]
      refine List.pairwise_cons.mpr ⟨?_, hs⟩
      intro b hb
      rcases List.mem_cons.mp hb with h | h
      · subst h; exact h1
      · exact Nat.lt_trans h1 (hlt _ h)
    · by_cases h2 : k = x
      · subst h2
        simp only [insertS, h1, if_false, if_true]
        exact hs
      · have h3 : x < k := by omega
        simp only [insertS, h1, if_false, h2]
        refine List.pairwise_cons.mpr ⟨?_, ih hrest⟩
        intro b hb
        rcases mem_insertS.mp hb with h | h
        · subst h; exact h3
        · exact hlt _ h

theorem mem_foldl_insertS {a : Nat} :
    ∀ {l s : List Nat},
      a ∈ l.foldl (fun s x => insertS x s) s ↔ a ∈ l ∨ a ∈ s := by
  intro l
  induction l with
  | nil => simp
  | cons x rest ih =>
    intro s
    simp only [List.foldl_cons, ih, mem_insertS, List.mem_cons]
    tauto

theorem mem_toSetS {a : Nat} {l : List Nat} : a ∈ toSetS l ↔ a ∈ l := by
  simp [toSetS, mem_foldl_insertS]

theorem setSorted_foldl_insertS :
    ∀ {l s : List Nat}, setSorted s →
      setSorted (l.foldl (fun s x => insertS x s) s) := by
  intro l
  induction l with
  | nil => intro s h; simpa using h
  | cons x rest ih =>
    intro s hs
    exact ih (setSorted_insertS x hs)

theorem setSorted_toSetS {l : List Nat} : setSorted (toSetS l) :=
  setSorted_foldl_insertS (by simp [setSorted])

/-- Two lists strictly sorted by the same key function and with the same
members are equal. -/
theorem sortedExt {β : Type _} (f : β → Nat) :
    ∀ {l1 l2 : List β}, l1.Pairwise (fun a b => f a < f b) →
      l2.Pairwise (fun a b => f a < f b) → (∀ x, x ∈ l1 ↔ x ∈ l2) →
      l1 = l2 := by
  intro l1
  induction l1 with
  | nil =>
    intro l2 _ _ hm
    cases l2 with
    | nil => rfl
    | cons y t2 => exact absurd ((hm y).mpr (List.mem_cons_self y t2)) (by simp)
  | cons x t1 ih =>
    intro l2 h1 h2 hm
    cases l2 with
    | nil => exact absurd ((hm x).mp (List.mem_cons_self x t1)) (by simp)
    | cons y t2 =>
      rcases List.pairwise_cons.mp h1 with ⟨hx, ht1⟩
      rcases List.pairwise_cons.mp h2 with ⟨hy, ht2⟩
      have hxy : x = y := by
        rcases List.mem_cons.mp ((hm x).mp (List.mem_cons_self x t1)) with h | h
        · exact h
        · rcases List.mem_cons.mp ((hm y).mpr (List.mem_cons_self y t2)) with h' | h'
          · exact h'.symm
          · exact absurd (Nat.lt_trans (hx _ h') (hy _ h)) (by omega)
      subst hxy
      have hmt : ∀ z, z ∈ t1 ↔ z ∈ t2 := by
        intro z
        constructor
        · intro hz
          rcases List.mem_cons.mp ((hm z).mp (List.mem_cons_of_mem _ hz)) with h | h
          · exact absurd (h ▸ hx _ hz) (by omega)
          · exact h
        · intro hz
          rcases List.mem_cons.mp ((hm z).mpr (List.mem_cons_of_mem _ hz)) with h | h
          · exact absurd (h ▸ hy _ hz) (by omega)
          · exact h
      rw [ih ht1 ht2 hmt]

/-- A function whose image list has no duplicates is injective on the
list. -/
theorem map_nodup_inj {β γ : Type _} (f : β → γ) :
    ∀ {l : List β}, (l.map f).Nodup → ∀ {p q : β}, p ∈ l → q ∈ l →
      f p = f q → p = q := by
  intro l
  induction l with
  | nil => intro _ p q hp; simp at hp
  | cons x rest ih =>
    intro hnd p q hp hq hf
    simp only [List.map_cons, List.nodup_cons] at hnd
    rcases List.mem_cons.mp hp with hp1 | hp1
    · rcases List.mem_cons.mp hq with hq1 | hq1
      · rw [hp1, hq1]
      · refine absurd ?_ hnd.1
        rw [← hp1, hf]
        exact List.mem_map_of_mem f hq1
    · rcases List.mem_cons.mp hq with hq1 | hq1
      · refine absurd ?_ hnd.1
        rw [← hq1, ← hf]
        exact List.mem_map_of_mem f hp1
      · exact ih hnd.2 hp1 hq1 hf

/-! ### Pass-1 evidence-set lemmas -/

theorem insertEvidence_fst_mem {α : Type _} {p q : ProdRef α} :
    ∀ {l : List (ProdRef α)}, q ∈ (insertEvidence p l).1 →
      q = p ∨ q ∈ l := by
  intro l
  induction l with
  | nil => intro h; simp [insertEvidence] at h; exact Or.inl h
  | cons x rest ih =>
    intro h
    by_cases h1 : p.idx < x.idx
    · simp only [insertEvidence, h1, if_true] at h
      rcases List.mem_cons.mp h with h | h
      · exact Or.inl h
      · exact Or.inr h
    · by_cases h2 : p.idx = x.idx
      · simp only [insertEvidence, if_neg h1, if_pos h2] at h
        exact Or.inr h
      · simp only [insertEvidence, h1, if_false, h2] at h
        rcases List.mem_cons.mp h with h | h
        · exact Or.inr (List.mem_cons.mpr (Or.inl h))
        · rcases ih h with h | h
          · exact Or.inl h
          · exact Or.inr (List.mem_cons_of_mem _ h)

theorem mem_insertEvidence_fst {α : Type _} {p q : ProdRef α} :
    ∀ {l : List (ProdRef α)}, q ∈ l → q ∈ (insertEvidence p l).1 := by
  intro l
  induction l with
  | nil => intro h; simp at h
  | cons x rest ih =>
    intro h
    by_cases h1 : p.idx < x.idx
    · simp only [insertEvidence, h1, if_true]
      exact List.mem_cons_of_mem _ h
    · by_cases h2 : p.idx = x.idx
      · simp only [insertEvidence, if_neg h1, if_pos h2]
        exact h
      · simp only [insertEvidence, h1, if_false, h2]
        rcases List.mem_cons.mp h with h | h
        · exact List.mem_cons.mpr (Or.inl h)
        · exact List.mem_cons_of_mem _ (ih h)

theorem insertEvidence_true_self {α : Type _} {p : ProdRef α} :
    ∀ {l : List (ProdRef α)}, (insertEvidence p l).2 = true →
      p ∈ (insertEvidence p l).1 := by
  intro l
  induction l with
  | nil => intro _; simp [insertEvidence]
  | cons x rest ih =>
    intro h
    by_cases h1 : p.idx < x.idx
    · simp only [insertEvidence, h1, if_true]
      exact List.mem_cons.mpr (Or.inl rfl)
    · by_cases h2 : p.idx = x.idx
      · simp [insertEvidence, h1, h2] at h
      · simp only [insertEvidence, h1, if_false, h2] at h ⊢
        exact List.mem_cons_of_mem _ (ih h)

theorem insertEvidence_false {α : Type _} {p : ProdRef α} :
    ∀ {l : List (ProdRef α)}, (insertEvidence p l).2 = false →
      (insertEvidence p l).1 = l ∧ ∃ q ∈ l, q.idx = p.idx := by
  intro l
  induction l with
  | nil => intro h; simp [insertEvidence] at h
  | cons x rest ih =>
    intro h
    by_cases h1 : p.idx < x.idx
    · simp [insertEvidence, h1] at h
    · by_cases h2 : p.idx = x.idx
      · constructor
        · simp only [insertEvidence, if_neg h1, if_pos h2]
        · exact ⟨x, List.mem_cons_self x rest, h2.symm⟩
      · simp only [insertEvidence, h1, if_false, h2] at h ⊢
        rcases ih h with ⟨heq, q, hq, hidx⟩
        exact ⟨by rw [heq], q, List.mem_cons_of_mem _ hq, hidx⟩

theorem insertEvidence_true_len {α : Type _} {p : ProdRef α} :
    ∀ {l : List (ProdRef α)}, (insertEvidence p l).2 = true →
      (insertEvidence p l).1.length = l.length + 1 := by
  intro l
  induction l with
  | nil => intro _; simp [insertEvidence]
  | cons x rest ih =>
    intro h
    by_cases h1 : p.idx < x.idx
    · simp [insertEvidence, h1]
    · by_cases h2 : p.idx = x.idx
      · simp [insertEvidence, h1, h2] at h
      · simp only [insertEvidence, h1, if_false, h2] at h ⊢
        simp [ih h]

theorem insertEvidence_true_not_mem {α : Type _} {p : ProdRef α} :
    ∀ {l : List (ProdRef α)}, sortedByIdx l → (insertEvidence p l).2 = true →
      ∀ q ∈ l, q.idx ≠ p.idx := by
  intro l
  induction l with
  | nil => intro _ _ q hq; simp at hq
  | cons x rest ih =>
    intro hs h q hq
    rcases List.pairwise_cons.mp hs with ⟨hlt, hrest⟩
    by_cases h1 : p.idx < x.idx
    · rcases List.mem_cons.mp hq with hq | hq
      · subst hq; omega
      · have := hlt _ hq
        omega
    · by_cases h2 : p.idx = x.idx
      · simp [insertEvidence, h1, h2] at h
      · simp only [insertEvidence, h1, if_false, h2] at h
        rcases List.mem_cons.mp hq with hq | hq
        · subst hq; omega
        · exact ih hrest h q hq

theorem insertEvidence_sorted {α : Type _} {p : ProdRef α} :
    ∀ {l : List (ProdRef α)}, sortedByIdx l →
      sortedByIdx (insertEvidence p l).1 := by
  intro l
  induction l with
  | nil => intro _; simp [insertEvidence, sortedByIdx]
  | cons x rest ih =>
    intro hs
    rcases List.pairwise_cons.mp hs with ⟨hlt, hrest⟩
    by_cases h1 : p.idx < x.idx
    · simp only [insertEvidence, h1, if_true]
      refine List.pairwise_cons.mpr ⟨?_, hs⟩
      intro q hq
      rcases List.mem_cons.mp hq with h | h
      · subst h; exact h1
      · exact Nat.lt_trans h1 (hlt _ h)
    · by_cases h2 : p.idx = x.idx
      · simp only [insertEvidence, if_neg h1, if_pos h2]
        exact hs
      · have h3 : x.idx < p.idx := by omega
        simp only [insertEvidence, h1, if_false, h2]
        refine List.pairwise_cons.mpr ⟨?_, ih hrest⟩
        intro q hq
        rcases insertEvidence_fst_mem hq with h | h
        · subst h; exact h3
        · exact hlt _ h

theorem insertEvidence_ne_nil {α : Type _} {p : ProdRef α} :
    ∀ {l : List (ProdRef α)}, (insertEvidence p l).1 ≠ [] := by
  intro l
  cases l with
  | nil => simp [insertEvidence]
  | cons x rest =>
    by_cases h1 : p.idx < x.idx
    · simp [insertEvidence, h1]
    · by_cases h2 : p.idx = x.idx
      · simp [insertEvidence, h1, h2]
      · simp [insertEvidence, h1, h2]

/-! ## C8: `ProdRef` comparison ignores the action value -/

/-- C8: for two production views of the same grammar denoting the same
production (same head, same production reference), equality and ordering
compare equal whatever the action-value payloads hold, and in general both
comparisons are entirely independent of the action-value component. -/
theorem prodref_ignores_action_value {α : Type _} (a b : ProdRef α)
    (hh : a.head = b.head) (hi : a.idx = b.idx) :
    ProdRef.beq a b = true ∧ ProdRef.cmp a b = Ordering.eq ∧
    ∀ (c d : ProdRef α) (x y : Option α),
      ProdRef.cmp { c with action_value := x } { d with action_value := y } =
        ProdRef.cmp c d ∧
      ProdRef.beq { c with action_value := x } { d with action_value := y } =
        ProdRef.beq c d := by
  refine ⟨?_, ?_, fun c d x y => ⟨rfl, rfl⟩⟩
  · simp [ProdRef.beq, hh, hi]
  · have h1 : compare a.head b.head = Ordering.eq := Nat.compare_eq_eq.mpr hh
    have h2 : compare a.idx b.idx = Ordering.eq := Nat.compare_eq_eq.mpr hi
    simp [ProdRef.cmp, h1, h2, Ordering.then]

/-- Witness for C8 at concrete views with differing payloads. -/
theorem prodref_ignores_action_value_witness :
    ProdRef.beq (α := Nat)
        { head := 4, idx := 2, prod := Production.mk 0 [], action_value := some 3 }
        { head := 4, idx := 2, prod := Production.mk 9 [], action_value := some 8 } = true ∧
      ProdRef.cmp (α := Nat)
        { head := 4, idx := 2, prod := Production.mk 0 [], action_value := some 3 }
        { head := 4, idx := 2, prod := Production.mk 9 [], action_value := some 8 } = Ordering.eq ∧
      ∀ (c d : ProdRef Nat) (x y : Option Nat),
        ProdRef.cmp { c with action_value := x } { d with action_value := y } =
          ProdRef.cmp c d ∧
        ProdRef.beq { c with action_value := x } { d with action_value := y } =
          ProdRef.beq c d :=
  prodref_ignores_action_value _ _ rfl rfl

/-! ## C9: duplicate rule heads are silently collapsed, the later rule wins -/

/-- C9: feeding `Grammar::new` two rules with the same head succeeds without
any error, and the resulting grammar keeps only the later rule — the first
rule's production (action key 100) is gone. -/
theorem duplicate_head_last_wins :
    Grammar.new 0 [ruleC9a, ruleC9b] ([] : List (Nat × Unit)) = Except.ok gC9 ∧
    lookupA 0 gC9.rule_set = some ruleC9b ∧
    ∀ r ∈ gC9.rule_set, ∀ p ∈ r.2.prods, p.action_key ≠ 100 := by
  refine ⟨rfl, rfl, by decide⟩

/-! ## C10: no action-map coverage check; `RuleRef::prods` unwrap panics -/

/-- C10: `Grammar::new` accepts a grammar whose action map lacks a
production's action key (it performs no such check), and on that grammar
`RuleRef::prods` hits the `unwrap` panic (embedded as `none`) instead of
returning an error value. -/
theorem missing_action_key_panics :
    Grammar.new 0 [ruleC10] ([] : List (Nat × Unit)) = Except.ok gC10 ∧
    RuleRef.prodRefs { grammar := gC10, head := 0, prods := ruleC10.prods } =
      none :=
  ⟨rfl, rfl⟩

/-! ## C5: unreachable rule heads are not reported -/

/-- Every nonterminal reachable in `gC5` is the start symbol 0. -/
theorem gC5_reach (nt : Nat) (h : ReachG gC5 nt) : nt = 0 := by
  induction h with
  | start => rfl
  | step nt nt2 r p pe _ hlook hp hpe helem ih =>
    subst ih
    have hr := hlook
    simp [gC5, lookupA] at hr
    subst hr
    have hp2 : p = Production.mk 100 [] := by simpa using hp
    subst hp2
    simp at hpe

/-- Counterexample to C5: construction of `gC5` succeeds with no error at
all, although nonterminal 1 appears in the grammar (as a rule head) and is
not reachable from the start symbol — it is not reported in any
"unreachable nonterm" error set. -/
theorem unreachable_head_not_reported_cex :
    Grammar.new 0
        [Rule.mk 0 [Production.mk 100 []],
         Rule.mk 1 [Production.mk 101 [ProductionElement.mk none (Element.Term 7)]]]
        [(100, ()), (101, ())] = Except.ok gC5 ∧
      (1, Rule.mk 1 [Production.mk 101 [ProductionElement.mk none (Element.Term 7)]])
        ∈ gC5.rule_set ∧
      ¬ ReachG gC5 1 :=
  ⟨rfl, by decide, fun h => by simpa using gC5_reach 1 h⟩


/-! ### addEvidence lemmas -/

theorem addEvidence_lookup_ne {α : Type _} {m : NullState α} {p : ProdRef α}
    {k : Nat} (hk : k ≠ p.head) :
    lookupA k (addEvidence m p).1 = lookupA k m := by
  cases hbase : lookupA p.head m with
  | none => simp only [addEvidence, hbase]; exact lookupA_insertA_ne _ hk m
  | some l => simp only [addEvidence, hbase]; exact lookupA_insertA_ne _ hk m

theorem addEvidence_mem_mono {α : Type _} {m : NullState α} {p q : ProdRef α}
    (h : evMem q m) : evMem q (addEvidence m p).1 := by
  obtain ⟨l, hl, hq⟩ := h
  by_cases hk : q.head = p.head
  · rw [hk] at hl
    refine ⟨(insertEvidence p l).1, ?_, mem_insertEvidence_fst hq⟩
    rw [hk]
    simp only [addEvidence, hl]
    exact lookupA_insertA_self _ _ m
  · exact ⟨l, by rw [addEvidence_lookup_ne hk]; exact hl, hq⟩

theorem addEvidence_true_self {α : Type _} {m : NullState α} {p : ProdRef α}
    (h : (addEvidence m p).2 = true) : evMem p (addEvidence m p).1 := by
  cases hbase : lookupA p.head m with
  | none =>
    refine ⟨[p], ?_, List.mem_cons_self p []⟩
    simp only [addEvidence, hbase]
    exact lookupA_insertA_self _ _ m
  | some l =>
    have h2 : (insertEvidence p l).2 = true := by
      simpa only [addEvidence, hbase] using h
    refine ⟨(insertEvidence p l).1, ?_, insertEvidence_true_self h2⟩
    simp only [addEvidence, hbase]
    exact lookupA_insertA_self _ _ m

theorem addEvidence_mem_inv {α : Type _} {m : NullState α} {p q : ProdRef α}
    (h : evMem q (addEvidence m p).1) : q = p ∨ evMem q m := by
  obtain ⟨l2, hl2, hq⟩ := h
  by_cases hk : q.head = p.head
  · rw [hk] at hl2
    cases hbase : lookupA p.head m with
    | none =>
      rw [show (addEvidence m p).1 = insertA p.head [p] m by
          simp only [addEvidence, hbase], lookupA_insertA_self] at hl2
      cases hl2
      simp at hq
      exact Or.inl hq
    | some l =>
      rw [show (addEvidence m p).1 = insertA p.head (insertEvidence p l).1 m by
          simp only [addEvidence, hbase], lookupA_insertA_self] at hl2
      cases hl2
      rcases insertEvidence_fst_mem hq with h | h
      · exact Or.inl h
      · exact Or.inr ⟨l, by rw [hk]; exact hbase, h⟩
  · rw [addEvidence_lookup_ne hk] at hl2
    exact Or.inr ⟨l2, hl2, hq⟩

theorem addEvidence_false_eq {α : Type _} {m : NullState α} {p : ProdRef α}
    (hs : keysSorted m) (h : (addEvidence m p).2 = false) :
    (addEvidence m p).1 = m := by
  cases hbase : lookupA p.head m with
  | none => simp [addEvidence, hbase] at h
  | some l =>
    have h2 : (insertEvidence p l).2 = false := by
      simpa only [addEvidence, hbase] using h
    rcases insertEvidence_false h2 with ⟨heq, _⟩
    simp only [addEvidence, hbase, heq]
    exact insertA_same hs hbase

theorem addEvidence_false_mem {α : Type _} {prods : List (ProdRef α)}
    {m : NullState α} {p : ProdRef α} (hInv : SInv prods m)
    (h : (addEvidence m p).2 = false) :
    ∃ q, evMem q m ∧ ProdRef.head q = p.head ∧ ProdRef.idx q = p.idx := by
  cases hbase : lookupA p.head m with
  | none => simp [addEvidence, hbase] at h
  | some l =>
    have h2 : (insertEvidence p l).2 = false := by
      simpa only [addEvidence, hbase] using h
    rcases insertEvidence_false h2 with ⟨_, q, hq, hidx⟩
    have hentry : (p.head, l) ∈ m := lookupA_mem hbase
    have hhead : ProdRef.head q = p.head := hInv.sheads _ hentry q hq
    exact ⟨q, ⟨l, by rw [hhead]; exact hbase, hq⟩, hhead, hidx⟩

theorem addEvidence_inv {α : Type _} {prods : List (ProdRef α)}
    {m : NullState α} {p : ProdRef α} (hInv : SInv prods m) (hp : p ∈ prods)
    (hn : ProdNullableL prods p) : SInv prods (addEvidence m p).1 := by
  cases hbase : lookupA p.head m with
  | none =>
    simp only [addEvidence, hbase]
    refine ⟨keysSorted_insertA _ _ hInv.skeys, ?_, ?_, ?_, ?_, ?_⟩
    · intro e he
      rcases mem_insertA he with he | he
      · subst he; simp [sortedByIdx]
      · exact hInv.svals e he
    · intro e he q hq
      rcases mem_insertA he with he | he
      · subst he; simp at hq; subst hq; rfl
      · exact hInv.sheads e he q hq
    · intro e he q hq
      rcases mem_insertA he with he | he
      · subst he; simp at hq; subst hq; exact hp
      · exact hInv.sprods e he q hq
    · intro e he
      rcases mem_insertA he with he | he
      · subst he; simp
      · exact hInv.snonempty e he
    · intro e he q hq
      rcases mem_insertA he with he | he
      · subst he; simp at hq; subst hq; exact hn
      · exact hInv.ssound e he q hq
  | some l =>
    have hentry : (p.head, l) ∈ m := lookupA_mem hbase
    simp only [addEvidence, hbase]
    refine ⟨keysSorted_insertA _ _ hInv.skeys, ?_, ?_, ?_, ?_, ?_⟩
    · intro e he
      rcases mem_insertA he with he | he
      · subst he
        exact insertEvidence_sorted (hInv.svals _ hentry)
      · exact hInv.svals e he
    · intro e he q hq
      rcases mem_insertA he with he | he
      · subst he
        rcases insertEvidence_fst_mem hq with h | h
        · subst h; rfl
        · exact hInv.sheads _ hentry q h
      · exact hInv.sheads e he q hq
    · intro e he q hq
      rcases mem_insertA he with he | he
      · subst he
        rcases insertEvidence_fst_mem hq with h | h
        · subst h; exact hp
        · exact hInv.sprods _ hentry q h
      · exact hInv.sprods e he q hq
    · intro e he
      rcases mem_insertA he with he | he
      · subst he; exact insertEvidence_ne_nil
      · exact hInv.snonempty e he
    · intro e he q hq
      rcases mem_insertA he with he | he
      · subst he
        rcases insertEvidence_fst_mem hq with h | h
        · subst h; exact hn
        · exact hInv.ssound _ hentry q h
      · exact hInv.ssound e he q hq

/-! ### State-size lemmas -/

theorem stateSize_cons {α : Type _} (e : Nat × List (ProdRef α))
    (m : NullState α) : stateSize (e :: m) = e.2.length + stateSize m := by
  simp [stateSize]

theorem lookupA_none_forall {β : Type _} {k : Nat} :
    ∀ {l : List (Nat × β)}, lookupA k l = none → ∀ e ∈ l, e.1 ≠ k := by
  intro l
  induction l with
  | nil => intro _ e he; simp at he
  | cons x rest ih =>
    intro h e he
    by_cases hx : x.1 = k
    · simp [lookupA, hx] at h
    · simp only [lookupA, hx, if_false] at h
      rcases List.mem_cons.mp he with he | he
      · subst he; exact hx
      · exact ih h e he

theorem stateSize_insertA_none {α : Type _} {k : Nat}
    {v : List (ProdRef α)} :
    ∀ {m : NullState α}, lookupA k m = none →
      stateSize (insertA k v m) = stateSize m + v.length := by
  intro m
  induction m with
  | nil => intro _; simp [insertA, stateSize]
  | cons e rest ih =>
    intro h
    have hne : e.1 ≠ k := lookupA_none_forall h e (List.mem_cons_self e rest)
    have hrest : lookupA k rest = none := by
      simpa only [lookupA, hne, if_false] using h
    by_cases h1 : k < e.1
    · simp only [insertA, h1, if_true]
      simp [stateSize_cons]
      omega
    · have h2 : k ≠ e.1 := fun hc => hne hc.symm
      simp only [insertA, h1, if_false, h2]
      simp only [stateSize_cons, ih hrest]
      omega

theorem stateSize_insertA_some {α : Type _} {k : Nat}
    {v l : List (ProdRef α)} :
    ∀ {m : NullState α}, keysSorted m → lookupA k m = some l →
      stateSize (insertA k v m) + l.length = stateSize m + v.length := by
  intro m
  induction m with
  | nil => intro _ h; simp [lookupA] at h
  | cons e rest ih =>
    intro hs h
    rcases List.pairwise_cons.mp hs with ⟨hlt, hrest⟩
    by_cases hx : e.1 = k
    · simp only [lookupA, hx, if_true] at h
      cases h
      have h1 : ¬ k < e.1 := by omega
      simp only [insertA, h1, if_false, if_pos hx.symm]
      simp [stateSize_cons]
      omega
    · simp only [lookupA, hx, if_false] at h
      have hmem := lookupA_mem h
      have h3 : e.1 < k := hlt _ hmem
      have h1 : ¬ k < e.1 := by omega
      have h2 : k ≠ e.1 := by omega
      simp only [insertA, h1, if_false, h2]
      have := ih hrest h
      simp only [stateSize_cons]
      omega

theorem addEvidence_true_size {α : Type _} {m : NullState α} {p : ProdRef α}
    (hs : keysSorted m) (h : (addEvidence m p).2 = true) :
    stateSize (addEvidence m p).1 = stateSize m + 1 := by
  cases hbase : lookupA p.head m with
  | none =>
    simp only [addEvidence, hbase]
    simpa using stateSize_insertA_none hbase
  | some l =>
    have h2 : (insertEvidence p l).2 = true := by
      simpa only [addEvidence, hbase] using h
    have hlen := insertEvidence_true_len h2
    have := stateSize_insertA_some (v := (insertEvidence p l).1) hs hbase
    simp only [addEvidence, hbase]
    omega

theorem mem_stateIds {α : Type _} {x : Nat × Nat} :
    ∀ {m : NullState α},
      x ∈ stateIds m ↔ ∃ e ∈ m, ∃ q ∈ e.2, x = (e.1, ProdRef.idx q) := by
  intro m
  induction m with
  | nil => simp [stateIds]
  | cons e rest ih =>
    simp only [stateIds, List.foldr_cons, List.mem_append, List.mem_map]
    constructor
    · intro h
      rcases h with h | h
      · rcases h with ⟨q, hq, hx⟩
        exact ⟨e, List.mem_cons_self e rest, q, hq, hx.symm⟩
      · rcases ih.mp h with ⟨e2, he2, q, hq, hx⟩
        exact ⟨e2, List.mem_cons_of_mem _ he2, q, hq, hx⟩
    · rintro ⟨e2, he2, q, hq, hx⟩
      rcases List.mem_cons.mp he2 with he2 | he2
      · subst he2
        exact Or.inl ⟨q, hq, hx.symm⟩
      · exact Or.inr (ih.mpr ⟨e2, he2, q, hq, hx⟩)

theorem stateSize_eq_length {α : Type _} :
    ∀ (m : NullState α), stateSize m = (stateIds m).length := by
  intro m
  induction m with
  | nil => simp [stateSize, stateIds]
  | cons e rest ih =>
    simp [stateSize_cons, stateIds, ih]

theorem stateIds_nodup {α : Type _} {prods : List (ProdRef α)} :
    ∀ {m : NullState α}, SInv prods m → (stateIds m).Nodup := by
  intro m
  induction m with
  | nil => intro _; simp [stateIds]
  | cons e rest ih =>
    intro hInv
    have hrest : SInv prods rest :=
      ⟨(List.pairwise_cons.mp hInv.skeys).2,
       fun e2 he2 => hInv.svals e2 (List.mem_cons_of_mem _ he2),
       fun e2 he2 => hInv.sheads e2 (List.mem_cons_of_mem _ he2),
       fun e2 he2 => hInv.sprods e2 (List.mem_cons_of_mem _ he2),
       fun e2 he2 => hInv.snonempty e2 (List.mem_cons_of_mem _ he2),
       fun e2 he2 => hInv.ssound e2 (List.mem_cons_of_mem _ he2)⟩
    have hkey : ∀ e2 ∈ rest, e.1 < e2.1 := (List.pairwise_cons.mp hInv.skeys).1
    show ((e.2.map fun q => (e.1, ProdRef.idx q)) ++ stateIds rest).Nodup
    refine List.Nodup.append ?_ (ih hrest) ?_
    · have hsv : sortedByIdx e.2 := hInv.svals e (List.mem_cons_self e rest)
      have : e.2.Pairwise (fun a b =>
          (e.1, ProdRef.idx a) ≠ (e.1, ProdRef.idx b)) := by
        refine hsv.imp ?_
        intro a b hab
        intro hc
        have : ProdRef.idx a = ProdRef.idx b := congrArg Prod.snd hc
        omega
      exact (List.pairwise_map).mpr this
    · intro x hx1 hx2
      rcases List.mem_map.mp hx1 with ⟨q, _, hq⟩
      rcases mem_stateIds.mp hx2 with ⟨e2, he2, q2, _, hq2⟩
      have h1 : x.1 = e.1 := by rw [← hq]
      have h2 : x.1 = e2.1 := by rw [hq2]
      have := hkey e2 he2
      omega

theorem nodup_subset_length {β : Type _} [DecidableEq β] {l1 l2 : List β}
    (h : l1.Nodup) (hs : l1 ⊆ l2) : l1.length ≤ l2.length := by
  calc l1.length = l1.toFinset.card := (List.toFinset_card_of_nodup h).symm
    _ ≤ l2.toFinset.card := Finset.card_le_card (fun x hx => by
        simp only [List.mem_toFinset] at *
        exact hs hx)
    _ ≤ l2.length := l2.toFinset_card_le

theorem stateSize_le {α : Type _} {prods : List (ProdRef α)}
    {m : NullState α} (hInv : SInv prods m) : stateSize m ≤ prods.length := by
  have hsub : stateIds m ⊆ prodIds prods := by
    intro x hx
    rcases mem_stateIds.mp hx with ⟨e, he, q, hq, hx2⟩
    have hh : ProdRef.head q = e.1 := hInv.sheads e he q hq
    have hp : q ∈ prods := hInv.sprods e he q hq
    rw [hx2, ← hh]
    exact List.mem_map_of_mem _ hp
  calc stateSize m = (stateIds m).length := stateSize_eq_length m
    _ ≤ (prodIds prods).length := nodup_subset_length (stateIds_nodup hInv) hsub
    _ = prods.length := by simp [prodIds]

/-! ### Pass-1 fold and loop lemmas -/

theorem passFold_eq {α : Type _} :
    ∀ (l : List (ProdRef α)) (m : NullState α) (b : Bool),
      l.foldl passOne (m, b) = ((passStep l m).1, b || (passStep l m).2) := by
  intro l
  induction l with
  | nil => intro m b; simp [passStep]
  | cons p rest ih =>
    intro m b
    by_cases hipn : is_prod_nullable m p = true
    · simp only [List.foldl_cons, passStep, passOne, hipn, if_true]
      rw [ih _ (b || (addEvidence m p).2), ih _ (false || (addEvidence m p).2)]
      simp [Bool.or_assoc]
    · have hipn2 : is_prod_nullable m p = false := by
        simpa using hipn
      simp only [List.foldl_cons, passStep, passOne, hipn2]
      simp only [Bool.false_eq_true, if_false]
      rw [ih _ b, ih _ false]
      simp

theorem passStep_cons_true {α : Type _} {p : ProdRef α} {rest : List (ProdRef α)}
    {m : NullState α} (h : is_prod_nullable m p = true) :
    passStep (p :: rest) m =
      ((passStep rest (addEvidence m p).1).1,
       (addEvidence m p).2 || (passStep rest (addEvidence m p).1).2) := by
  simp only [passStep, List.foldl_cons, passOne, h, if_true]
  rw [passFold_eq]
  simp only [Bool.false_or]
  exact Prod.ext rfl rfl

theorem passStep_cons_false {α : Type _} {p : ProdRef α} {rest : List (ProdRef α)}
    {m : NullState α} (h : is_prod_nullable m p = false) :
    passStep (p :: rest) m = passStep rest m := by
  simp only [passStep, List.foldl_cons, passOne, h]
  simp

theorem ipn_sound {α : Type _} {prods : List (ProdRef α)} {m : NullState α}
    (hInv : SInv prods m) {p : ProdRef α}
    (h : is_prod_nullable m p = true) : ProdNullableL prods p := by
  unfold is_prod_nullable at h
  rw [List.all_eq_true] at h
  constructor
  · intro pe hpe t hc
    have h2 := h pe hpe
    rw [hc] at h2
    simp at h2
  · intro pe hpe nt2 hc
    have h2 := h pe hpe
    rw [hc] at h2
    simp only at h2
    rcases lookupA_isSome_iff.mp (by simpa using h2) with ⟨v, hv⟩
    have hne := hInv.snonempty _ hv
    rcases List.exists_mem_of_ne_nil v hne with ⟨q, hq⟩
    have hqs := hInv.ssound _ hv q hq
    have hqp := hInv.sprods _ hv q hq
    have hqh : ProdRef.head q = nt2 := hInv.sheads _ hv q hq
    have := NullableL.mk q hqp hqs.1 hqs.2
    rwa [hqh] at this

theorem passStep_inv {α : Type _} {prods : List (ProdRef α)} :
    ∀ (l : List (ProdRef α)) {m : NullState α}, (∀ p ∈ l, p ∈ prods) →
      SInv prods m → SInv prods (passStep l m).1 := by
  intro l
  induction l with
  | nil => intro m _ hInv; simpa [passStep] using hInv
  | cons p rest ih =>
    intro m hl hInv
    by_cases hipn : is_prod_nullable m p = true
    · rw [passStep_cons_true hipn]
      exact ih (fun q hq => hl q (List.mem_cons_of_mem _ hq))
        (addEvidence_inv hInv (hl p (List.mem_cons_self p rest))
          (ipn_sound hInv hipn))
    · rw [passStep_cons_false (by simpa using hipn)]
      exact ih (fun q hq => hl q (List.mem_cons_of_mem _ hq)) hInv

theorem passStep_mem_mono {α : Type _} :
    ∀ (l : List (ProdRef α)) {m : NullState α} {q : ProdRef α},
      evMem q m → evMem q (passStep l m).1 := by
  intro l
  induction l with
  | nil => intro m q h; simpa [passStep] using h
  | cons p rest ih =>
    intro m q h
    by_cases hipn : is_prod_nullable m p = true
    · rw [passStep_cons_true hipn]
      exact ih (addEvidence_mem_mono h)
    · rw [passStep_cons_false (by simpa using hipn)]
      exact ih h

theorem passStep_false {α : Type _} {prods : List (ProdRef α)} :
    ∀ (l : List (ProdRef α)) {m : NullState α}, SInv prods m →
      (passStep l m).2 = false →
      (passStep l m).1 = m ∧
      ∀ p ∈ l, is_prod_nullable m p = true →
        ∃ q, evMem q m ∧ ProdRef.head q = p.head ∧ ProdRef.idx q = p.idx := by
  intro l
  induction l with
  | nil =>
    intro m _ _
    refine ⟨by simp [passStep], ?_⟩
    intro p hp
    simp at hp
  | cons p rest ih =>
    intro m hInv hflag
    by_cases hipn : is_prod_nullable m p = true
    · rw [passStep_cons_true hipn] at hflag ⊢
      simp only [Bool.or_eq_false_iff] at hflag
      have hae : (addEvidence m p).1 = m :=
        addEvidence_false_eq hInv.skeys hflag.1
      rw [hae] at hflag ⊢
      rcases ih hInv hflag.2 with ⟨hfst, hrest⟩
      refine ⟨hfst, ?_⟩
      intro p2 hp2 hipn2
      rcases List.mem_cons.mp hp2 with hp2 | hp2
      · subst hp2
        exact addEvidence_false_mem hInv hflag.1
      · exact hrest p2 hp2 hipn2
    · rw [passStep_cons_false (by simpa using hipn)] at hflag ⊢
      rcases ih hInv hflag with ⟨hfst, hrest⟩
      refine ⟨hfst, ?_⟩
      intro p2 hp2 hipn2
      rcases List.mem_cons.mp hp2 with hp2 | hp2
      · subst hp2
        exact absurd hipn2 hipn
      · exact hrest p2 hp2 hipn2

theorem passStep_size_mono {α : Type _} {prods : List (ProdRef α)} :
    ∀ (l : List (ProdRef α)) {m : NullState α}, SInv prods m →
      (∀ p ∈ l, p ∈ prods) → stateSize m ≤ stateSize (passStep l m).1 := by
  intro l
  induction l with
  | nil => intro m _ _; simp [passStep]
  | cons p rest ih =>
    intro m hInv hl
    by_cases hipn : is_prod_nullable m p = true
    · rw [passStep_cons_true hipn]
      have hInv2 := addEvidence_inv hInv (hl p (List.mem_cons_self p rest))
        (ipn_sound hInv hipn)
      have h2 := ih (m := (addEvidence m p).1) hInv2
        (fun q hq => hl q (List.mem_cons_of_mem _ hq))
      cases h3 : (addEvidence m p).2 with
      | true =>
        have h4 := addEvidence_true_size hInv.skeys h3
        show stateSize m ≤ stateSize (passStep rest (addEvidence m p).1).1
        omega
      | false =>
        rw [addEvidence_false_eq hInv.skeys h3] at h2 ⊢
        exact h2
    · rw [passStep_cons_false (by simpa using hipn)]
      exact ih hInv (fun q hq => hl q (List.mem_cons_of_mem _ hq))

theorem passStep_true_size {α : Type _} {prods : List (ProdRef α)} :
    ∀ (l : List (ProdRef α)) {m : NullState α}, SInv prods m →
      (∀ p ∈ l, p ∈ prods) → (passStep l m).2 = true →
      stateSize m + 1 ≤ stateSize (passStep l m).1 := by
  intro l
  induction l with
  | nil => intro m _ _ h; simp [passStep] at h
  | cons p rest ih =>
    intro m hInv hl hflag
    by_cases hipn : is_prod_nullable m p = true
    · rw [passStep_cons_true hipn] at hflag ⊢
      have hInv2 := addEvidence_inv hInv (hl p (List.mem_cons_self p rest))
        (ipn_sound hInv hipn)
      cases h3 : (addEvidence m p).2 with
      | true =>
        have h4 := addEvidence_true_size hInv.skeys h3
        have h5 := passStep_size_mono rest hInv2
          (fun q hq => hl q (List.mem_cons_of_mem _ hq))
        show stateSize m + 1 ≤ stateSize (passStep rest (addEvidence m p).1).1
        omega
      | false =>
        rw [addEvidence_false_eq hInv.skeys h3] at hflag ⊢
        rw [h3] at hflag
        simp only [Bool.false_or] at hflag
        exact ih hInv (fun q hq => hl q (List.mem_cons_of_mem _ hq)) hflag
    · rw [passStep_cons_false (by simpa using hipn)] at hflag ⊢
      exact ih hInv (fun q hq => hl q (List.mem_cons_of_mem _ hq)) hflag

theorem sInv_nil {α : Type _} {prods : List (ProdRef α)} :
    SInv prods ([] : NullState α) := by
  refine ⟨?_, ?_, ?_, ?_, ?_, ?_⟩ <;> simp [keysSorted]

theorem innerLoop_inv {α : Type _} {prods : List (ProdRef α)} :
    ∀ (fuel : Nat) {m : NullState α}, SInv prods m →
      SInv prods (innerLoop prods fuel m) := by
  intro fuel
  induction fuel with
  | zero => intro m h; simpa [innerLoop] using h
  | succ fuel ih =>
    intro m hInv
    simp only [innerLoop]
    cases hr : (passStep prods m).2 with
    | true =>
      simp only [if_true]
      exact ih (passStep_inv prods (fun _ h => h) hInv)
    | false =>
      simp only [Bool.false_eq_true, if_false]
      exact passStep_inv prods (fun _ h => h) hInv

theorem innerLoop_stable {α : Type _} {prods : List (ProdRef α)} :
    ∀ (fuel : Nat) {m : NullState α}, SInv prods m →
      prods.length + 1 ≤ fuel + stateSize m →
      (passStep prods (innerLoop prods fuel m)).2 = false := by
  intro fuel
  induction fuel with
  | zero =>
    intro m hInv hsz
    exfalso
    have := stateSize_le hInv
    omega
  | succ fuel ih =>
    intro m hInv hsz
    simp only [innerLoop]
    cases hr : (passStep prods m).2 with
    | true =>
      simp only [if_true]
      have hInv2 := passStep_inv prods (fun _ h => h) hInv
      have hgrow := passStep_true_size prods hInv (fun _ h => h) hr
      exact ih hInv2 (by omega)
    | false =>
      simp only [Bool.false_eq_true, if_false]
      have := (passStep_false prods hInv hr).1
      rw [this]
      exact hr

theorem inner_sInv {α : Type _} (prods : List (ProdRef α)) :
    SInv prods (inner_calculate_from prods) :=
  innerLoop_inv _ sInv_nil

theorem inner_stable {α : Type _} (prods : List (ProdRef α)) :
    (passStep prods (inner_calculate_from prods)).2 = false := by
  refine innerLoop_stable _ sInv_nil ?_
  simp [stateSize]

/-! ### Pass-1 characterization -/

theorem key_sound {α : Type _} {prods : List (ProdRef α)} {m : NullState α}
    (hInv : SInv prods m) {nt : Nat} (h : (lookupA nt m).isSome) :
    NullableL prods nt := by
  rcases lookupA_isSome_iff.mp h with ⟨v, hv⟩
  have hne := hInv.snonempty _ hv
  rcases List.exists_mem_of_ne_nil v hne with ⟨q, hq⟩
  have hqs := hInv.ssound _ hv q hq
  have hqp := hInv.sprods _ hv q hq
  have hqh : ProdRef.head q = nt := hInv.sheads _ hv q hq
  have := NullableL.mk q hqp hqs.1 hqs.2
  rwa [hqh] at this

theorem inner_mem_sound {α : Type _} {prods : List (ProdRef α)}
    {p : ProdRef α} (h : evMem p (inner_calculate_from prods)) :
    p ∈ prods ∧ ProdNullableL prods p := by
  obtain ⟨l, hl, hp⟩ := h
  have hInv := inner_sInv prods
  have hentry := lookupA_mem hl
  exact ⟨hInv.sprods _ hentry p hp, hInv.ssound _ hentry p hp⟩

theorem inner_key_complete {α : Type _} {prods : List (ProdRef α)}
    {nt : Nat} (h : NullableL prods nt) :
    (lookupA nt (inner_calculate_from prods)).isSome := by
  induction h with
  | mk p hp hterm hnull ih =>
    have hInv := inner_sInv prods
    have hipn : is_prod_nullable (inner_calculate_from prods) p = true := by
      unfold is_prod_nullable
      rw [List.all_eq_true]
      intro pe hpe
      cases hel : pe.element with
      | Term t => exact absurd hel (hterm pe hpe t)
      | NonTerm nt2 =>
        simpa using ih pe hpe nt2 hel
    rcases (passStep_false prods hInv (inner_stable prods)).2 p hp hipn with
      ⟨q, ⟨v, hv, hqv⟩, hqh, _⟩
    rw [← hqh]
    simp [hv]

theorem inner_mem_complete {α : Type _} {prods : List (ProdRef α)}
    (hnd : (prodIds prods).Nodup) {p : ProdRef α} (hp : p ∈ prods)
    (h : ProdNullableL prods p) : evMem p (inner_calculate_from prods) := by
  have hInv := inner_sInv prods
  have hipn : is_prod_nullable (inner_calculate_from prods) p = true := by
    unfold is_prod_nullable
    rw [List.all_eq_true]
    intro pe hpe
    cases hel : pe.element with
    | Term t => exact absurd hel (h.1 pe hpe t)
    | NonTerm nt2 =>
      simpa using inner_key_complete (h.2 pe hpe nt2 hel)
  rcases (passStep_false prods hInv (inner_stable prods)).2 p hp hipn with
    ⟨q, hqm, hqh, hqi⟩
  have hq : q ∈ prods := (inner_mem_sound hqm).1
  have : q = p := by
    refine map_nodup_inj _ hnd hq hp ?_
    simp [hqh, hqi]
  rwa [this] at hqm

theorem inner_mem_iff {α : Type _} {prods : List (ProdRef α)}
    (hnd : (prodIds prods).Nodup) (p : ProdRef α) :
    evMem p (inner_calculate_from prods) ↔
      p ∈ prods ∧ ProdNullableL prods p :=
  ⟨inner_mem_sound, fun h => inner_mem_complete hnd h.1 h.2⟩

theorem inner_key_iff {α : Type _} {prods : List (ProdRef α)} (nt : Nat) :
    (lookupA nt (inner_calculate_from prods)).isSome ↔
      NullableL prods nt :=
  ⟨key_sound (inner_sInv prods), inner_key_complete⟩

/-! ### Grammar-level bridge -/

theorem mem_foldr_append {β γ : Type _} (f : β → List γ) :
    ∀ {l : List β} {x : γ},
      x ∈ l.foldr (fun e acc => f e ++ acc) [] ↔ ∃ e ∈ l, x ∈ f e := by
  intro l
  induction l with
  | nil => simp
  | cons e rest ih =>
    intro x
    simp [List.foldr_cons, ih]

theorem map_foldr_append {β γ δ : Type _} (f : β → List γ) (h : γ → δ) :
    ∀ (l : List β),
      (l.foldr (fun e acc => f e ++ acc) []).map h =
        l.foldr (fun e acc => (f e).map h ++ acc) [] := by
  intro l
  induction l with
  | nil => simp
  | cons e rest ih => simp [ih]

theorem foldr_append_nodup {β γ : Type _} (f : β → List γ) :
    ∀ {l : List β}, (∀ e ∈ l, (f e).Nodup) →
      l.Pairwise (fun a b => ∀ x ∈ f a, ∀ y ∈ f b, x ≠ y) →
      (l.foldr (fun e acc => f e ++ acc) []).Nodup := by
  intro l
  induction l with
  | nil => intro _ _; simp
  | cons e rest ih =>
    intro h1 h2
    rcases List.pairwise_cons.mp h2 with ⟨hx, hrest⟩
    simp only [List.foldr_cons]
    refine List.Nodup.append (h1 e (List.mem_cons_self e rest))
      (ih (fun e2 he2 => h1 e2 (List.mem_cons_of_mem _ he2)) hrest) ?_
    intro x hx1 hx2
    rcases (mem_foldr_append f).mp hx2 with ⟨e2, he2, hxe2⟩
    exact hx e2 he2 x hx1 x hxe2 rfl

theorem mem_prods_iff {α : Type _} {g : Grammar α} (hg : keysSorted g.rule_set)
    {p : ProdRef α} :
    p ∈ g.prods ↔ ∃ r, lookupA (ProdRef.head p) g.rule_set = some r ∧
      r.prods[ProdRef.idx p]? = some (ProdRef.prod p) ∧
      ProdRef.action_value p =
        lookupA (ProdRef.prod p).action_key g.action_map := by
  unfold Grammar.prods
  rw [mem_foldr_append]
  constructor
  · rintro ⟨e, he, hp⟩
    rcases List.mem_map.mp hp with ⟨ip, hip, heq⟩
    obtain ⟨i, prod⟩ := ip
    subst heq
    refine ⟨e.2, ?_, ?_, rfl⟩
    · refine mem_lookupA hg ?_
      show (e.1, e.2) ∈ g.rule_set
      cases e
      exact he
    · exact List.mk_mem_enum_iff_getElem?.mp hip
  · rintro ⟨r, hr, hi, hav⟩
    refine ⟨(ProdRef.head p, r), lookupA_mem hr, ?_⟩
    rw [List.mem_map]
    refine ⟨(ProdRef.idx p, ProdRef.prod p),
      List.mk_mem_enum_iff_getElem?.mpr hi, ?_⟩
    cases p with
    | mk h i pr av =>
      simp only at hav ⊢
      rw [← hav]

theorem nullableL_iff_nullableG {α : Type _} {g : Grammar α}
    (hg : keysSorted g.rule_set) (nt : Nat) :
    NullableL g.prods nt ↔ NullableG g nt := by
  constructor
  · intro h
    induction h with
    | mk p hp hterm hnull ih =>
      rcases (mem_prods_iff hg).mp hp with ⟨r, hr, hi, _⟩
      exact NullableG.mk (ProdRef.head p) r (ProdRef.idx p) (ProdRef.prod p)
        hr hi hterm ih
  · intro h
    induction h with
    | mk nt r i prod0 hr hi hterm hnull ih =>
      have hp : (ProdRef.mk nt i prod0
          (lookupA prod0.action_key g.action_map)) ∈ g.prods := by
        rw [mem_prods_iff hg]
        exact ⟨r, hr, hi, rfl⟩
      exact NullableL.mk _ hp hterm ih

theorem prodIds_nodup_of_sorted {α : Type _} {g : Grammar α}
    (hg : keysSorted g.rule_set) : (prodIds (Grammar.prods g)).Nodup := by
  unfold prodIds Grammar.prods
  rw [map_foldr_append]
  refine foldr_append_nodup _ ?_ ?_
  · intro e _
    rw [List.map_map]
    show ((e.2.prods.enum).map fun ip => (e.1, ip.1)).Nodup
    have heq : (e.2.prods.enum).map (fun ip => (e.1, ip.1)) =
        ((e.2.prods.enum).map Prod.fst).map (fun i => (e.1, i)) := by
      rw [List.map_map]
      rfl
    rw [heq, List.enum_map_fst]
    refine (List.nodup_range _).map ?_
    intro a b hab
    exact congrArg Prod.snd hab
  · refine hg.imp ?_
    intro a b hab x hxa y hyb
    rw [List.map_map] at hxa hyb
    rcases List.mem_map.mp hxa with ⟨ipa, _, hxa2⟩
    rcases List.mem_map.mp hyb with ⟨ipb, _, hyb2⟩
    intro hc
    have h1 : x.1 = a.1 := by rw [← hxa2]; rfl
    have h2 : y.1 = b.1 := by rw [← hyb2]; rfl
    rw [hc] at h1
    omega

theorem nullableG_iff_exists {α : Type _} (g : Grammar α) (nt : Nat) :
    NullableG g nt ↔ ∃ (r : Rule) (i : Nat) (p : Production), lookupA nt g.rule_set = some r ∧
      r.prods[i]? = some p ∧
      ∀ pe ∈ p.elements, ∃ nt2,
        pe.element = Element.NonTerm nt2 ∧ NullableG g nt2 := by
  constructor
  · intro h
    cases h with
    | mk nt r i p hr hp hterm hnull =>
      refine ⟨r, i, p, hr, hp, ?_⟩
      intro pe hpe
      cases hel : pe.element with
      | Term t => exact absurd hel (hterm pe hpe t)
      | NonTerm nt2 => exact ⟨nt2, rfl, hnull pe hpe nt2 hel⟩
  · rintro ⟨r, i, p, hr, hp, hall⟩
    refine NullableG.mk nt r i p hr hp ?_ ?_
    · intro pe hpe t hc
      rcases hall pe hpe with ⟨nt2, he2, _⟩
      rw [hc] at he2
      cases he2
    · intro pe hpe nt2 hc
      rcases hall pe hpe with ⟨nt3, he3, h3⟩
      rw [hc] at he3
      cases he3
      exact h3

/-! ### C1: the nullable computation is sound and complete -/

/-- C1: for every well-formed grammar, a nonterminal is marked by the
pass-1 fixpoint iff it is nullable per the spec (some production of its
rule has every right-hand-side element a transitively nullable
nonterminal), and the spec predicate itself unfolds to exactly that
production condition (so an empty right-hand side is trivially nullable
and a production containing a terminal never qualifies). -/
theorem nullable_set_correct {α : Type _} (g : Grammar α) (hg : Grammar.WF g)
    (nt : Nat) :
    ((lookupA nt (inner_calculate_nullables g)).isSome ↔ NullableG g nt) ∧
    (NullableG g nt ↔ ∃ (r : Rule) (i : Nat) (p : Production), lookupA nt g.rule_set = some r ∧
      r.prods[i]? = some p ∧
      ∀ pe ∈ p.elements, ∃ nt2,
        pe.element = Element.NonTerm nt2 ∧ NullableG g nt2) := by
  constructor
  · unfold inner_calculate_nullables
    rw [inner_key_iff]
    exact nullableL_iff_nullableG hg.1 nt
  · exact nullableG_iff_exists g nt

/-- Witness for C1 at the chain grammar and its start nonterminal. -/
theorem nullable_set_correct_witness :
    Grammar.WF gChain ∧
    (((lookupA 0 (inner_calculate_nullables gChain)).isSome ↔
        NullableG gChain 0) ∧
      (NullableG gChain 0 ↔ ∃ (r : Rule) (i : Nat) (p : Production), lookupA 0 gChain.rule_set = some r ∧
        r.prods[i]? = some p ∧
        ∀ pe ∈ p.elements, ∃ nt2,
          pe.element = Element.NonTerm nt2 ∧ NullableG gChain nt2)) :=
  ⟨by decide, nullable_set_correct gChain (by decide) 0⟩


/-! ### C2: ambiguous nullability is reported as an error -/

theorem two_mem_length {β : Type _} {x y : β} :
    ∀ {l : List β}, x ∈ l → y ∈ l → x ≠ y → 2 ≤ l.length := by
  intro l
  induction l with
  | nil => intro hx; simp at hx
  | cons a rest ih =>
    intro hx hy hxy
    cases rest with
    | nil =>
      simp at hx hy
      rw [hx, hy] at hxy
      exact absurd rfl hxy
    | cons b rest2 => simp [Nat.le_add_left]

theorem prodNullableL_of_specG {α : Type _} {g : Grammar α}
    (hg : keysSorted g.rule_set) {pr : ProdRef α}
    (h : ∀ pe ∈ (ProdRef.prod pr).elements, ∃ nt2,
      pe.element = Element.NonTerm nt2 ∧ NullableG g nt2) :
    ProdNullableL g.prods pr := by
  constructor
  · intro pe hpe t hc
    rcases h pe hpe with ⟨nt2, he2, _⟩
    rw [hc] at he2
    cases he2
  · intro pe hpe nt2 hc
    rcases h pe hpe with ⟨nt3, he3, h3⟩
    rw [hc] at he3
    cases he3
    exact (nullableL_iff_nullableG hg _).mpr h3

/-- C2: whenever one nonterminal has two productions at distinct positions
of its rule that are each independently nullable, `calculate_nullables`
returns the `NullableAmbiguity` error (and hence no nullability table): the
ambiguity is never silently resolved. -/
theorem ambiguity_error_complete {α : Type _} (g : Grammar α)
    (hg : Grammar.WF g) (nt i j : Nat) (p q : Production) (r : Rule)
    (hr : lookupA nt g.rule_set = some r)
    (hpi : r.prods[i]? = some p) (hqj : r.prods[j]? = some q)
    (hij : i ≠ j)
    (hpn : ∀ pe ∈ p.elements, ∃ nt2,
      pe.element = Element.NonTerm nt2 ∧ NullableG g nt2)
    (hqn : ∀ pe ∈ q.elements, ∃ nt2,
      pe.element = Element.NonTerm nt2 ∧ NullableG g nt2) :
    calculate_nullables g =
      some (Except.error NullableError.NullableAmbiguity) := by
  have hnd := prodIds_nodup_of_sorted hg.1
  have hpmem : (ProdRef.mk nt i p (lookupA p.action_key g.action_map))
      ∈ g.prods := (mem_prods_iff hg.1).mpr ⟨r, hr, hpi, rfl⟩
  have hqmem : (ProdRef.mk nt j q (lookupA q.action_key g.action_map))
      ∈ g.prods := (mem_prods_iff hg.1).mpr ⟨r, hr, hqj, rfl⟩
  have hpev := inner_mem_complete hnd hpmem (prodNullableL_of_specG hg.1 hpn)
  have hqev := inner_mem_complete hnd hqmem (prodNullableL_of_specG hg.1 hqn)
  obtain ⟨l, hl, hpl⟩ := hpev
  obtain ⟨l2, hl2, hql⟩ := hqev
  rw [show ProdRef.head
      (ProdRef.mk nt i p (lookupA p.action_key g.action_map)) = nt
      from rfl] at hl
  rw [show ProdRef.head
      (ProdRef.mk nt j q (lookupA q.action_key g.action_map)) = nt
      from rfl] at hl2
  rw [hl] at hl2
  cases hl2
  have hne : (ProdRef.mk nt i p (lookupA p.action_key g.action_map)) ≠
      (ProdRef.mk nt j q (lookupA q.action_key g.action_map)) := by
    intro hc
    exact hij (congrArg ProdRef.idx hc)
  have hlen : 2 ≤ l.length := two_mem_length hpl hql hne
  have hfs : ((inner_calculate_from g.prods).find?
      fun e => e.2.length != 1).isSome := by
    refine List.find?_isSome.mpr ⟨(nt, l), lookupA_mem hl, ?_⟩
    simp only [bne_iff_ne, ne_eq]
    omega
  cases hfind : (inner_calculate_from g.prods).find?
      fun e => e.2.length != 1 with
  | none => rw [hfind] at hfs; simp at hfs
  | some e0 =>
    have he0p := List.find?_some hfind
    have he0m := List.mem_of_find?_eq_some hfind
    have hne0 : e0.2.length ≠ 0 := by
      intro hc
      exact (inner_sInv g.prods).snonempty e0 he0m (List.length_eq_zero.mp hc)
    show calculate_nullables_from g.prods =
      some (Except.error NullableError.NullableAmbiguity)
    unfold calculate_nullables_from
    simp only [hfind]
    simp [hne0]

/-- Witness for C2 at the ambiguous grammar of spec scenario 4. -/
theorem ambiguity_error_complete_witness :
    calculate_nullables gAmb =
      some (Except.error NullableError.NullableAmbiguity) :=
  ambiguity_error_complete gAmb (by decide) 0 0 1
    (Production.mk 100 [ProductionElement.mk none (Element.NonTerm 1)])
    (Production.mk 101 [ProductionElement.mk none (Element.NonTerm 2)])
    (Rule.mk 0
      [ Production.mk 100 [ProductionElement.mk none (Element.NonTerm 1)],
        Production.mk 101 [ProductionElement.mk none (Element.NonTerm 2)] ])
    rfl rfl rfl (by decide)
    (by
      intro pe hpe
      simp at hpe
      subst hpe
      refine ⟨1, rfl, ?_⟩
      exact NullableG.mk 1 (Rule.mk 1 [Production.mk 102 []]) 0
        (Production.mk 102 []) rfl rfl (by simp) (by simp))
    (by
      intro pe hpe
      simp at hpe
      subst hpe
      refine ⟨2, rfl, ?_⟩
      exact NullableG.mk 2 (Rule.mk 2 [Production.mk 103 []]) 0
        (Production.mk 103 []) rfl rfl (by simp) (by simp))


/-! ### C7: the result is independent of the production enumeration order -/

theorem nullableL_congr {α : Type _} {l1 l2 : List (ProdRef α)}
    (hm : ∀ p, p ∈ l1 ↔ p ∈ l2) {nt : Nat} (h : NullableL l1 nt) :
    NullableL l2 nt := by
  induction h with
  | mk p hp hterm hnull ih =>
    exact NullableL.mk p ((hm p).mp hp) hterm ih

theorem prodNullableL_congr {α : Type _} {l1 l2 : List (ProdRef α)}
    (hm : ∀ p, p ∈ l1 ↔ p ∈ l2) {p : ProdRef α}
    (h : ProdNullableL l1 p) : ProdNullableL l2 p :=
  ⟨h.1, fun pe hpe nt2 hc => nullableL_congr hm (h.2 pe hpe nt2 hc)⟩

theorem assoc_ext {β : Type _} {m1 m2 : List (Nat × β)}
    (h1 : keysSorted m1) (h2 : keysSorted m2)
    (hl : ∀ k, lookupA k m1 = lookupA k m2) : m1 = m2 := by
  refine sortedExt Prod.fst h1 h2 ?_
  intro e
  constructor
  · intro he
    exact lookupA_mem ((hl e.1) ▸ mem_lookupA h1 (show (e.1, e.2) ∈ m1 by
      cases e; exact he))
  · intro he
    exact lookupA_mem ((hl e.1).symm ▸ mem_lookupA h2 (show (e.1, e.2) ∈ m2 by
      cases e; exact he))

theorem state_ext {α : Type _} {prods1 prods2 : List (ProdRef α)}
    {m1 m2 : NullState α} (h1 : SInv prods1 m1) (h2 : SInv prods2 m2)
    (hm : ∀ p, evMem p m1 ↔ evMem p m2) : m1 = m2 := by
  refine assoc_ext h1.skeys h2.skeys ?_
  intro k
  have hkey : ∀ {ma : NullState α} {mb : NullState α},
      SInv prods1 ma → (∀ p, evMem p ma → evMem p mb) →
      ∀ {v}, lookupA k ma = some v → (lookupA k mb).isSome := by
    intro ma mb ha hab v hv
    have hentry := lookupA_mem hv
    have hne := ha.snonempty _ hentry
    rcases List.exists_mem_of_ne_nil v hne with ⟨q, hq⟩
    have hqh : ProdRef.head q = k := ha.sheads _ hentry q hq
    have := hab q ⟨v, by rw [hqh]; exact hv, hq⟩
    obtain ⟨v2, hv2, _⟩ := this
    rw [hqh] at hv2
    simp [hv2]
  cases hv1 : lookupA k m1 with
  | none =>
    cases hv2 : lookupA k m2 with
    | none => rfl
    | some v2 =>
      have hkey2 : ∀ {v}, lookupA k m2 = some v → (lookupA k m1).isSome := by
        intro v hv
        have hentry := lookupA_mem hv
        have hne := h2.snonempty _ hentry
        rcases List.exists_mem_of_ne_nil _ hne with ⟨q, hq⟩
        have hqh : ProdRef.head q = k := h2.sheads _ hentry q hq
        have := (hm q).mpr ⟨_, by rw [hqh]; exact hv, hq⟩
        obtain ⟨v2, hv2, _⟩ := this
        rw [hqh] at hv2
        simp [hv2]
      have := hkey2 hv2
      rw [hv1] at this
      simp at this
  | some v1 =>
    have hs2 := hkey h1 (fun p hp => (hm p).mp hp) hv1
    cases hv2 : lookupA k m2 with
    | none => rw [hv2] at hs2; simp at hs2
    | some v2 =>
      congr 1
      refine sortedExt ProdRef.idx (h1.svals _ (lookupA_mem hv1))
        (h2.svals _ (lookupA_mem hv2)) ?_
      intro q
      constructor
      · intro hq
        have hqh : ProdRef.head q = k := h1.sheads _ (lookupA_mem hv1) q hq
        have := (hm q).mp ⟨v1, by rw [hqh]; exact hv1, hq⟩
        obtain ⟨v2b, hv2b, hqb⟩ := this
        rw [hqh, hv2] at hv2b
        cases hv2b
        exact hqb
      · intro hq
        have hqh : ProdRef.head q = k := h2.sheads _ (lookupA_mem hv2) q hq
        have := (hm q).mpr ⟨v2, by rw [hqh]; exact hv2, hq⟩
        obtain ⟨v1b, hv1b, hqb⟩ := this
        rw [hqh, hv1] at hv1b
        cases hv1b
        exact hqb

theorem inner_calculate_congr {α : Type _} {l1 l2 : List (ProdRef α)}
    (hnd1 : (prodIds l1).Nodup) (hnd2 : (prodIds l2).Nodup)
    (hm : ∀ p, p ∈ l1 ↔ p ∈ l2) :
    inner_calculate_from l1 = inner_calculate_from l2 := by
  refine state_ext (inner_sInv l1) (inner_sInv l2) ?_
  intro p
  rw [inner_mem_iff hnd1, inner_mem_iff hnd2]
  constructor
  · rintro ⟨hp, hn⟩
    exact ⟨(hm p).mp hp, prodNullableL_congr hm hn⟩
  · rintro ⟨hp, hn⟩
    exact ⟨(hm p).mpr hp, prodNullableL_congr (fun q => (hm q).symm) hn⟩

/-- C7: the nullable engine's full result (nullable set, per-nonterminal
production choice, and witness trees) does not depend on the enumeration
order of the productions: running it on any permutation of the grammar's
production enumeration yields the identical result value.  (As a pure
function of the grammar, two invocations on the same grammar are literally
the same value.) -/
theorem nullable_order_independent {α : Type _} (g : Grammar α)
    (hg : Grammar.WF g) (l : List (ProdRef α)) (hperm : l.Perm g.prods) :
    calculate_nullables_from l = calculate_nullables g := by
  have hnd2 := prodIds_nodup_of_sorted hg.1
  have hndperm : (prodIds l).Perm (prodIds g.prods) := hperm.map _
  have hnd1 : (prodIds l).Nodup := (hndperm.nodup_iff).mpr hnd2
  have hinner := inner_calculate_congr hnd1 hnd2 (fun p => hperm.mem_iff)
  show calculate_nullables_from l = calculate_nullables_from g.prods
  unfold calculate_nullables_from
  rw [hinner]

/-- Witness for C7: the reversed production enumeration of the chain
grammar yields the identical result. -/
theorem nullable_order_independent_witness :
    calculate_nullables_from (Grammar.prods gChain).reverse =
      calculate_nullables gChain :=
  nullable_order_independent gChain (by decide) _ (List.reverse_perm _)


/-! ### Reachability: the BFS saturation computes exactly `ReachG` -/

theorem mem_get_elements {α : Type _} {g : Grammar α} {el : Element} :
    el ∈ g.get_elements ↔
      ∃ e ∈ g.rule_set, ∃ p ∈ e.2.prods, el ∈ p.elements.map (·.element) := by
  unfold Grammar.get_elements
  rw [mem_foldr_append]
  constructor
  · rintro ⟨e, he, hel⟩
    rcases (mem_foldr_append _).mp hel with ⟨p, hp, hel2⟩
    exact ⟨e, he, p, hp, hel2⟩
  · rintro ⟨e, he, p, hp, hel⟩
    exact ⟨e, he, (mem_foldr_append _).mpr ⟨p, hp, hel⟩⟩

theorem mem_get_nonterminals {α : Type _} {g : Grammar α} {x : Nat} :
    x ∈ g.get_nonterminals ↔
      ∃ e ∈ g.rule_set, ∃ p ∈ e.2.prods, ∃ pe ∈ p.elements,
        pe.element = Element.NonTerm x := by
  unfold Grammar.get_nonterminals
  rw [List.mem_filterMap]
  constructor
  · rintro ⟨el, hel, hf⟩
    rcases mem_get_elements.mp hel with ⟨e, he, p, hp, hel2⟩
    rcases List.mem_map.mp hel2 with ⟨pe, hpe, hpee⟩
    refine ⟨e, he, p, hp, pe, hpe, ?_⟩
    rw [hpee]
    cases el with
    | Term t => simp at hf
    | NonTerm nt2 => simp at hf; rw [hf]
  · rintro ⟨e, he, p, hp, pe, hpe, hel⟩
    refine ⟨Element.NonTerm x, ?_, rfl⟩
    exact mem_get_elements.mpr ⟨e, he, p, hp,
      List.mem_map.mpr ⟨pe, hpe, hel⟩⟩

theorem mem_nextNonterms {α : Type _} {g : Grammar α} {nt x : Nat} :
    x ∈ g.nextNonterms nt ↔
      ∃ r, lookupA nt g.rule_set = some r ∧
        ∃ p ∈ r.prods, ∃ pe ∈ p.elements, pe.element = Element.NonTerm x := by
  unfold Grammar.nextNonterms
  cases hlook : lookupA nt g.rule_set with
  | none => simp
  | some r =>
    simp only [Option.some.injEq]
    rw [mem_foldr_append]
    constructor
    · rintro ⟨p, hp, hx⟩
      rcases List.mem_filterMap.mp hx with ⟨pe, hpe, hf⟩
      refine ⟨r, rfl, p, hp, pe, hpe, ?_⟩
      cases hel : pe.element with
      | Term t => rw [hel] at hf; simp at hf
      | NonTerm nt2 => rw [hel] at hf; simp at hf; rw [hf]
    · rintro ⟨r2, hr2, p, hp, pe, hpe, hel⟩
      cases hr2
      refine ⟨p, hp, ?_⟩
      exact List.mem_filterMap.mpr ⟨pe, hpe, by rw [hel]⟩

theorem nextNonterms_sub {α : Type _} {g : Grammar α} {nt x : Nat}
    (h : x ∈ g.nextNonterms nt) : x ∈ g.get_nonterminals := by
  rcases mem_nextNonterms.mp h with ⟨r, hr, p, hp, pe, hpe, hel⟩
  exact mem_get_nonterminals.mpr ⟨(nt, r), lookupA_mem hr, p, hp, pe, hpe, hel⟩

theorem mem_reachFold {α : Type _} {g : Grammar α} {x : Nat} :
    ∀ (l acc : List Nat),
      (x ∈ l.foldl (fun acc nt =>
          (g.nextNonterms nt).foldl (fun a n => insertS n a) acc) acc ↔
        x ∈ acc ∨ ∃ nt ∈ l, x ∈ g.nextNonterms nt) := by
  intro l
  induction l with
  | nil => simp
  | cons nt0 rest ih =>
    intro acc
    simp only [List.foldl_cons]
    rw [ih]
    rw [show (x ∈ (g.nextNonterms nt0).foldl (fun a n => insertS n a) acc) ↔
        (x ∈ g.nextNonterms nt0 ∨ x ∈ acc) from mem_foldl_insertS]
    simp only [List.mem_cons]
    constructor
    · rintro (⟨h | h⟩ | ⟨nt2, h1, h2⟩)
      · exact Or.inr ⟨nt0, Or.inl rfl, h⟩
      · exact Or.inl h
      · exact Or.inr ⟨nt2, Or.inr h1, h2⟩
    · rintro (h | ⟨nt2, h1 | h1, h2⟩)
      · exact Or.inl (Or.inr h)
      · subst h1
        exact Or.inl (Or.inl h2)
      · exact Or.inr ⟨nt2, h1, h2⟩

theorem mem_reachStep_iff {α : Type _} {g : Grammar α} {x : Nat}
    {v : List Nat} :
    x ∈ reachStep g v ↔ x ∈ v ∨ ∃ nt ∈ v, x ∈ g.nextNonterms nt :=
  mem_reachFold v v

theorem reachStep_sorted {α : Type _} {g : Grammar α} :
    ∀ {v : List Nat}, setSorted v → setSorted (reachStep g v) := by
  have haux : ∀ (l acc : List Nat), setSorted acc →
      setSorted (l.foldl (fun acc nt =>
        (g.nextNonterms nt).foldl (fun a n => insertS n a) acc) acc) := by
    intro l
    induction l with
    | nil => intro acc h; simpa using h
    | cons nt0 rest ih =>
      intro acc h
      exact ih _ (setSorted_foldl_insertS h)
  intro v hv
  exact haux v v hv

theorem sorted_subset_lt {v w : List Nat} (hv : setSorted v)
    (hw : setSorted w) (hsub : ∀ x ∈ v, x ∈ w) (hne : v ≠ w) :
    v.length < w.length := by
  have hnv : v.Nodup := hv.imp (fun h => Nat.ne_of_lt h)
  have hnw : w.Nodup := hw.imp (fun h => Nat.ne_of_lt h)
  have hle := nodup_subset_length hnv hsub
  rcases Nat.lt_or_ge v.length w.length with h | h
  · exact h
  · exfalso
    have hlen : v.length = w.length := by omega
    have h1 : v.toFinset ⊆ w.toFinset := by
      intro x hx
      simp only [List.mem_toFinset] at *
      exact hsub x hx
    have hcv : v.toFinset.card = v.length := List.toFinset_card_of_nodup hnv
    have hcw : w.toFinset.card = w.length := List.toFinset_card_of_nodup hnw
    have hfs : v.toFinset = w.toFinset :=
      Finset.eq_of_subset_of_card_le h1 (by omega)
    have hmm : ∀ x, x ∈ v ↔ x ∈ w := by
      intro x
      constructor
      · exact hsub x
      · intro hx
        have hx2 : x ∈ v.toFinset := by
          rw [hfs]
          simp [hx]
        simpa using hx2
    exact hne (sortedExt id hv hw hmm)

theorem reachLoop_inv {α : Type _} {g : Grammar α} (P : List Nat → Prop)
    (hstep : ∀ v, P v → P (reachStep g v)) :
    ∀ (fuel : Nat) {v : List Nat}, P v → P (reachLoop g fuel v) := by
  intro fuel
  induction fuel with
  | zero => intro v h; simpa [reachLoop] using h
  | succ fuel ih =>
    intro v h
    simp only [reachLoop]
    by_cases heq : reachStep g v = v
    · simpa [heq] using h
    · simp only [heq, if_false]
      exact ih (hstep v h)

theorem reachLoop_stable {α : Type _} {g : Grammar α} :
    ∀ (fuel : Nat) {v : List Nat}, setSorted v →
      (∀ x ∈ v, x ∈ g.start_symbol :: g.get_nonterminals) →
      g.get_nonterminals.length + 2 ≤ fuel + v.length →
      reachStep g (reachLoop g fuel v) = reachLoop g fuel v := by
  intro fuel
  induction fuel with
  | zero =>
    intro v hv huniv hlen
    exfalso
    have hnv : v.Nodup := hv.imp (fun h => Nat.ne_of_lt h)
    have := nodup_subset_length hnv huniv
    simp at this
    omega
  | succ fuel ih =>
    intro v hv huniv hlen
    simp only [reachLoop]
    by_cases heq : reachStep g v = v
    · simp [heq]
    · simp only [heq, if_false]
      have hv2 := reachStep_sorted (g := g) hv
      have huniv2 : ∀ x ∈ reachStep g v,
          x ∈ g.start_symbol :: g.get_nonterminals := by
        intro x hx
        rcases mem_reachStep_iff.mp hx with hx | ⟨nt, _, hx⟩
        · exact huniv x hx
        · exact List.mem_cons_of_mem _ (nextNonterms_sub hx)
      have hgrow : v.length < (reachStep g v).length :=
        sorted_subset_lt hv hv2
          (fun x hx => mem_reachStep_iff.mpr (Or.inl hx))
          (fun h => heq h.symm)
      exact ih hv2 huniv2 (by omega)

theorem reach_correct {α : Type _} (g : Grammar α) (nt : Nat) :
    nt ∈ g.reachable_nonterms ↔ ReachG g nt := by
  have hv0s : setSorted (insertS g.start_symbol []) := by
    simp [insertS, setSorted]
  have hv0u : ∀ x ∈ insertS g.start_symbol [],
      x ∈ g.start_symbol :: g.get_nonterminals := by
    intro x hx
    rcases mem_insertS.mp hx with hx | hx
    · subst hx; exact List.mem_cons_self _ _
    · simp at hx
  have hstable : reachStep g g.reachable_nonterms = g.reachable_nonterms := by
    unfold Grammar.reachable_nonterms
    refine reachLoop_stable _ hv0s hv0u ?_
    simp [insertS]
  constructor
  · intro h
    refine reachLoop_inv (fun v => ∀ x ∈ v, ReachG g x) ?_ _ ?_ nt h
    · intro v hP x hx
      rcases mem_reachStep_iff.mp hx with hx | ⟨nt2, hnt2, hx⟩
      · exact hP x hx
      · rcases mem_nextNonterms.mp hx with ⟨r, hr, p, hp, pe, hpe, hel⟩
        exact ReachG.step nt2 x r p pe (hP nt2 hnt2) hr hp hpe hel
    · intro x hx
      rcases mem_insertS.mp hx with hx | hx
      · subst hx; exact ReachG.start
      · simp at hx
  · intro h
    induction h with
    | start =>
      refine reachLoop_inv (fun v => g.start_symbol ∈ v)
        (fun v h => mem_reachStep_iff.mpr (Or.inl h)) _ ?_
      exact mem_insertS.mpr (Or.inl rfl)
    | step nt2 nt3 r p pe hre hrlook hp hpe helem ih =>
      rw [← hstable]
      refine mem_reachStep_iff.mpr (Or.inr ⟨nt2, ih, ?_⟩)
      exact mem_nextNonterms.mpr ⟨r, hrlook, p, hp, pe, hpe, helem⟩


/-! ### Structural-defect set membership -/

theorem mem_nonterminals_without_rules {α : Type _} {g : Grammar α}
    {nt : Nat} :
    nt ∈ g.nonterminals_without_rules ↔ DefMissing g nt := by
  unfold Grammar.nonterminals_without_rules DefMissing
  rw [mem_toSetS, List.mem_filter]
  simp [Option.isNone_iff_eq_none]

theorem mem_rules_without_prods {α : Type _} {g : Grammar α} {nt : Nat} :
    nt ∈ g.rules_without_prods ↔ DefEmpty g nt := by
  unfold Grammar.rules_without_prods DefEmpty
  rw [mem_toSetS, List.mem_filterMap]
  constructor
  · rintro ⟨e, he, hf⟩
    by_cases hp : e.2.prods.isEmpty
    · simp only [hp, if_true, Option.some.injEq] at hf
      exact ⟨e, he, List.isEmpty_iff.mp hp, hf⟩
    · simp [hp] at hf
  · rintro ⟨e, he, hp, hh⟩
    refine ⟨e, he, ?_⟩
    simp [List.isEmpty_iff.mpr hp, hh]

theorem mem_unreachable_nonterms {α : Type _} {g : Grammar α} {nt : Nat} :
    nt ∈ g.unreachable_nonterms ↔ DefUnreach g nt := by
  unfold Grammar.unreachable_nonterms DefUnreach
  rw [mem_toSetS, List.mem_filter]
  constructor
  · rintro ⟨h1, h2⟩
    simp only [Bool.not_eq_eq_eq_not, Bool.not_true] at h2
    refine ⟨h1, ?_⟩
    intro hre
    have hmem := (reach_correct g nt).mpr hre
    simp at h2
    exact h2 hmem
  · rintro ⟨h1, h2⟩
    refine ⟨h1, ?_⟩
    have : nt ∉ g.reachable_nonterms := fun hc =>
      h2 ((reach_correct g nt).mp hc)
    simp [this]

/-! ### C3: all structural defects are collected and reported together -/

/-- C3: `Grammar::new` reports, in one aggregated error value, exactly the
full set of each of the three kinds of structural defect of the assembled
grammar — right-hand-side nonterminals without a rule, rules with zero
productions, and right-hand-side nonterminals unreachable from the start
symbol — and succeeds with the validated grammar precisely when no defect
exists. -/
theorem grammar_errors_complete {α : Type _} (start : Nat)
    (rules : List Rule) (amap : List (Nat × α)) :
    (∀ e, Grammar.new start rules amap = Except.error e →
      ∀ nt,
        (nt ∈ e.nonterms_without_rules ↔
          DefMissing (Grammar.build start rules amap) nt) ∧
        (nt ∈ e.rules_without_prods ↔
          DefEmpty (Grammar.build start rules amap) nt) ∧
        (nt ∈ e.unreachable_nonterms ↔
          DefUnreach (Grammar.build start rules amap) nt)) ∧
    (∀ g, Grammar.new start rules amap = Except.ok g →
      ∀ nt, ¬ DefMissing g nt ∧ ¬ DefEmpty g nt ∧ ¬ DefUnreach g nt) ∧
    ((∀ nt, ¬ DefMissing (Grammar.build start rules amap) nt ∧
        ¬ DefEmpty (Grammar.build start rules amap) nt ∧
        ¬ DefUnreach (Grammar.build start rules amap) nt) →
      Grammar.new start rules amap =
        Except.ok (Grammar.build start rules amap)) := by
  have hnew : Grammar.new start rules amap =
      ((Grammar.build start rules amap).check_grammar).map fun _ =>
        Grammar.build start rules amap := rfl
  by_cases hc :
      ((Grammar.build start rules amap).unreachable_nonterms.isEmpty &&
       (Grammar.build start rules amap).nonterminals_without_rules.isEmpty &&
       (Grammar.build start rules amap).rules_without_prods.isEmpty) = true
  · have hok : Grammar.new start rules amap =
        Except.ok (Grammar.build start rules amap) := by
      rw [hnew]
      unfold Grammar.check_grammar GrammarErrors.into_result
      simp only [hc, if_true, Except.map]
    have hc2 := hc
    simp only [Bool.and_eq_true] at hc2
    obtain ⟨⟨hcu, hcm⟩, hc3⟩ := hc2
    refine ⟨?_, ?_, fun _ => hok⟩
    · intro e he
      rw [hok] at he
      cases he
    · intro g hg nt
      rw [hok] at hg
      cases hg
      refine ⟨?_, ?_, ?_⟩
      · intro hd
        have := mem_nonterminals_without_rules.mpr hd
        rw [List.isEmpty_iff.mp hcm] at this
        simp at this
      · intro hd
        have := mem_rules_without_prods.mpr hd
        rw [List.isEmpty_iff.mp hc3] at this
        simp at this
      · intro hd
        have := mem_unreachable_nonterms.mpr hd
        rw [List.isEmpty_iff.mp hcu] at this
        simp at this
  · have herr : Grammar.new start rules amap = Except.error
        { unreachable_nonterms :=
            (Grammar.build start rules amap).unreachable_nonterms
          nonterms_without_rules :=
            (Grammar.build start rules amap).nonterminals_without_rules
          rules_without_prods :=
            (Grammar.build start rules amap).rules_without_prods } := by
      rw [hnew]
      unfold Grammar.check_grammar GrammarErrors.into_result
      simp only [hc, if_false, Except.map]
      simp
    refine ⟨?_, ?_, ?_⟩
    · intro e he nt
      rw [herr] at he
      cases he
      exact ⟨mem_nonterminals_without_rules, mem_rules_without_prods,
        mem_unreachable_nonterms⟩
    · intro g hg
      rw [herr] at hg
      cases hg
    · intro hnod
      exfalso
      apply hc
      have h1 : (Grammar.build start rules amap).unreachable_nonterms = [] := by
        rw [List.eq_nil_iff_forall_not_mem]
        intro nt hnt
        exact (hnod nt).2.2 (mem_unreachable_nonterms.mp hnt)
      have h2 : (Grammar.build start rules amap).nonterminals_without_rules
          = [] := by
        rw [List.eq_nil_iff_forall_not_mem]
        intro nt hnt
        exact (hnod nt).1 (mem_nonterminals_without_rules.mp hnt)
      have h3 : (Grammar.build start rules amap).rules_without_prods = [] := by
        rw [List.eq_nil_iff_forall_not_mem]
        intro nt hnt
        exact (hnod nt).2.1 (mem_rules_without_prods.mp hnt)
      simp [h1, h2, h3]

/-- Witness for C3 at the three-defect input: the returned error value
carries all three defects, one of each kind, and each membership is
certified through the theorem. -/
theorem grammar_errors_complete_witness :
    Grammar.new (α := Unit) 0 rulesDefect [] = Except.error
      { unreachable_nonterms := [3], nonterms_without_rules := [5],
        rules_without_prods := [2] } ∧
    (5 ∈ [5] ↔ DefMissing (Grammar.build (α := Unit) 0 rulesDefect []) 5) ∧
    (2 ∈ [2] ↔ DefEmpty (Grammar.build (α := Unit) 0 rulesDefect []) 2) ∧
    (3 ∈ [3] ↔ DefUnreach (Grammar.build (α := Unit) 0 rulesDefect []) 3) := by
  have happ := (grammar_errors_complete (α := Unit) 0 rulesDefect []).1
    { unreachable_nonterms := [3], nonterms_without_rules := [5],
      rules_without_prods := [2] } rfl
  exact ⟨rfl, (happ 5).1, (happ 2).2.1, (happ 3).2.2⟩

/-! ### C5 (amended): only right-hand-side occurrences are examined -/

/-- C5 as amended: in the error value, the "unreachable nonterm" set
contains exactly the nonterminals that occur on some production's
right-hand side and are unreachable from the start symbol; a rule head that
occurs on no right-hand side is never examined (and, as the counterexample
shows, an unreachable such head is not reported at all). -/
theorem unreachable_rhs_reported {α : Type _} (start : Nat)
    (rules : List Rule) (amap : List (Nat × α)) (e : GrammarErrors)
    (he : Grammar.new start rules amap = Except.error e) (nt : Nat) :
    nt ∈ e.unreachable_nonterms ↔
      nt ∈ (Grammar.build start rules amap).get_nonterminals ∧
      ¬ ReachG (Grammar.build start rules amap) nt :=
  ((grammar_errors_complete start rules amap).1 e he nt).2.2

/-- Witness for the amended C5 at the three-defect input. -/
theorem unreachable_rhs_reported_witness :
    Grammar.new (α := Unit) 0 rulesDefect [] = Except.error
      { unreachable_nonterms := [3], nonterms_without_rules := [5],
        rules_without_prods := [2] } ∧
    (3 ∈ [3] ↔
      3 ∈ (Grammar.build (α := Unit) 0 rulesDefect []).get_nonterminals ∧
      ¬ ReachG (Grammar.build (α := Unit) 0 rulesDefect []) 3) :=
  ⟨rfl, unreachable_rhs_reported (α := Unit) 0 rulesDefect []
    { unreachable_nonterms := [3], nonterms_without_rules := [5],
      rules_without_prods := [2] } rfl 3⟩


/-! ### Graded nullability -/

theorem nullableLN_mono {α : Type _} {prods : List (ProdRef α)} :
    ∀ {n m : Nat}, n ≤ m → ∀ {nt : Nat}, NullableLN prods n nt →
      NullableLN prods m nt := by
  intro n
  induction n with
  | zero => intro m _ nt h; simp [NullableLN] at h
  | succ n ih =>
    intro m hm nt h
    obtain ⟨m2, rfl⟩ : ∃ m2, m = m2 + 1 := ⟨m - 1, by omega⟩
    simp only [NullableLN] at h ⊢
    obtain ⟨p, hp, hh, hch⟩ := h
    refine ⟨p, hp, hh, ?_⟩
    intro pe hpe
    obtain ⟨nt2, he, hn⟩ := hch pe hpe
    exact ⟨nt2, he, ih (by omega) hn⟩

theorem exists_uniform_child_bound {α : Type _} {prods : List (ProdRef α)} :
    ∀ (l : List ProductionElement),
      (∀ pe ∈ l, ∀ nt2, pe.element = Element.NonTerm nt2 →
        ∃ n, NullableLN prods n nt2) →
      ∃ N, ∀ pe ∈ l, ∀ nt2, pe.element = Element.NonTerm nt2 →
        NullableLN prods N nt2 := by
  intro l
  induction l with
  | nil => intro _; exact ⟨0, by simp⟩
  | cons pe rest ih =>
    intro h
    obtain ⟨N, hN⟩ := ih (fun pe2 h2 => h pe2 (List.mem_cons_of_mem _ h2))
    cases hel : pe.element with
    | Term t =>
      refine ⟨N, ?_⟩
      intro pe2 hpe2 nt2 he2
      rcases List.mem_cons.mp hpe2 with h2 | h2
      · subst h2; rw [hel] at he2; cases he2
      · exact hN pe2 h2 nt2 he2
    | NonTerm nt0 =>
      obtain ⟨n0, hn0⟩ := h pe (List.mem_cons_self _ _) nt0 hel
      refine ⟨max N n0, ?_⟩
      intro pe2 hpe2 nt2 he2
      rcases List.mem_cons.mp hpe2 with h2 | h2
      · subst h2
        rw [hel] at he2
        cases he2
        exact nullableLN_mono (Nat.le_max_right _ _) hn0
      · exact nullableLN_mono (Nat.le_max_left _ _) (hN pe2 h2 nt2 he2)

theorem nullableL_iff_LN {α : Type _} {prods : List (ProdRef α)} (nt : Nat) :
    NullableL prods nt ↔ ∃ n, NullableLN prods n nt := by
  constructor
  · intro h
    induction h with
    | mk p hp hterm hnull ih =>
      obtain ⟨N, hN⟩ := exists_uniform_child_bound _ ih
      refine ⟨N + 1, ?_⟩
      simp only [NullableLN]
      refine ⟨p, hp, rfl, ?_⟩
      intro pe hpe
      cases hel : pe.element with
      | Term t => exact absurd hel (hterm pe hpe t)
      | NonTerm nt2 => exact ⟨nt2, rfl, hN pe hpe nt2 hel⟩
  · rintro ⟨n, h⟩
    induction n generalizing nt with
    | zero => simp [NullableLN] at h
    | succ n ih =>
      simp only [NullableLN] at h
      obtain ⟨p, hp, hh, hch⟩ := h
      subst hh
      refine NullableL.mk p hp ?_ ?_
      · intro pe hpe t hc
        rcases hch pe hpe with ⟨nt2, he2, _⟩
        rw [hc] at he2
        cases he2
      · intro pe hpe nt2 hc
        rcases hch pe hpe with ⟨nt3, he3, h3⟩
        rw [hc] at he3
        cases he3
        exact ih _ h3

/-! ### The singleton action map taken from the pass-1 result -/

theorem amap_lookup {α : Type _} :
    ∀ {inner : NullState α}, keysSorted inner → ∀ (nt : Nat),
      lookupA nt (inner.filterMap fun e =>
        (e.2.head?).map fun p => (e.1, p)) =
        (lookupA nt inner).bind fun l => l.head? := by
  intro inner
  induction inner with
  | nil => intro _ nt; simp [lookupA]
  | cons e rest ih =>
    intro hs nt
    rcases List.pairwise_cons.mp hs with ⟨hlt, hrest⟩
    cases hhead : e.2.head? with
    | none =>
      simp only [List.filterMap_cons, hhead, Option.map_none']
      by_cases he : e.1 = nt
      · subst he
        rw [ih hrest]
        have hnone : lookupA e.1 rest = none := by
          cases hl : lookupA e.1 rest with
          | none => rfl
          | some v =>
            have := hlt _ (lookupA_mem hl)
            omega
        rw [hnone]
        simp [lookupA, hhead]
      · simp [lookupA, he, ih hrest]
    | some p =>
      simp only [List.filterMap_cons, hhead, Option.map_some']
      by_cases he : e.1 = nt
      · subst he
        simp [lookupA, hhead]
      · simp [lookupA, he, ih hrest]

/-! ### Field-map construction lemmas -/

theorem buildFieldsAux_isSome {infos : List (Nat × TreeNode)} :
    ∀ {elems : List ProductionElement} (acc : List (Nat × TreeNode)),
      (∀ pe ∈ elems, ∀ id nt2, pe.identifier = some id →
        pe.element = Element.NonTerm nt2 → (lookupA nt2 infos).isSome) →
      (buildFieldsAux infos acc elems).isSome := by
  intro elems
  induction elems with
  | nil => intro acc _; simp [buildFieldsAux]
  | cons pe rest ih =>
    intro acc h
    have hrest : ∀ pe2 ∈ rest, ∀ id nt2, pe2.identifier = some id →
        pe2.element = Element.NonTerm nt2 → (lookupA nt2 infos).isSome :=
      fun pe2 h2 => h pe2 (List.mem_cons_of_mem _ h2)
    cases hid : pe.identifier with
    | none =>
      cases hel : pe.element with
      | Term t =>
        simp only [buildFieldsAux, hid, hel]
        exact ih acc hrest
      | NonTerm nt =>
        simp only [buildFieldsAux, hid, hel]
        exact ih acc hrest
    | some id =>
      cases hel : pe.element with
      | Term t =>
        simp only [buildFieldsAux, hid, hel]
        exact ih acc hrest
      | NonTerm nt =>
        have hsome := h pe (List.mem_cons_self _ _) id nt hid hel
        cases hlk : lookupA nt infos with
        | none => rw [hlk] at hsome; simp at hsome
        | some t =>
          simp only [buildFieldsAux, hid, hel, hlk]
          exact ih _ hrest

theorem buildFieldsAux_spec {infos : List (Nat × TreeNode)} :
    ∀ {elems : List ProductionElement} {acc fs : List (Nat × TreeNode)},
      buildFieldsAux infos acc elems = some fs →
      (∀ pe ∈ elems, ∀ id nt2, pe.identifier = some id →
        pe.element = Element.NonTerm nt2 → (lookupA nt2 infos).isSome) ∧
      fs = elems.foldl (specFieldStep infos) acc := by
  intro elems
  induction elems with
  | nil =>
    intro acc fs h
    simp only [buildFieldsAux] at h
    cases h
    exact ⟨by simp, by simp⟩
  | cons pe rest ih =>
    intro acc fs h
    cases hid : pe.identifier with
    | none =>
      cases hel : pe.element with
      | Term t =>
        rw [show buildFieldsAux infos acc (pe :: rest) =
            buildFieldsAux infos acc rest by
          simp only [buildFieldsAux, hid, hel]] at h
        rcases ih h with ⟨h1, h2⟩
        refine ⟨?_, ?_⟩
        · intro pe2 hpe2 id nt2 hid2 hel2
          rcases List.mem_cons.mp hpe2 with h3 | h3
          · subst h3; rw [hid] at hid2; cases hid2
          · exact h1 pe2 h3 id nt2 hid2 hel2
        · rw [h2]
          simp [List.foldl_cons, specFieldStep, hid, hel]
      | NonTerm nt =>
        rw [show buildFieldsAux infos acc (pe :: rest) =
            buildFieldsAux infos acc rest by
          simp only [buildFieldsAux, hid, hel]] at h
        rcases ih h with ⟨h1, h2⟩
        refine ⟨?_, ?_⟩
        · intro pe2 hpe2 id nt2 hid2 hel2
          rcases List.mem_cons.mp hpe2 with h3 | h3
          · subst h3; rw [hid] at hid2; cases hid2
          · exact h1 pe2 h3 id nt2 hid2 hel2
        · rw [h2]
          simp [List.foldl_cons, specFieldStep, hid, hel]
    | some id =>
      cases hel : pe.element with
      | Term t =>
        rw [show buildFieldsAux infos acc (pe :: rest) =
            buildFieldsAux infos acc rest by
          simp only [buildFieldsAux, hid, hel]] at h
        rcases ih h with ⟨h1, h2⟩
        refine ⟨?_, ?_⟩
        · intro pe2 hpe2 id2 nt2 hid2 hel2
          rcases List.mem_cons.mp hpe2 with h3 | h3
          · subst h3; rw [hel] at hel2; cases hel2
          · exact h1 pe2 h3 id2 nt2 hid2 hel2
        · rw [h2]
          simp [List.foldl_cons, specFieldStep, hid, hel]
      | NonTerm nt =>
        cases hlk : lookupA nt infos with
        | none =>
          rw [show buildFieldsAux infos acc (pe :: rest) = none by
            simp only [buildFieldsAux, hid, hel, hlk]] at h
          cases h
        | some t =>
          rw [show buildFieldsAux infos acc (pe :: rest) =
              buildFieldsAux infos (insertA id t acc) rest by
            simp only [buildFieldsAux, hid, hel, hlk]] at h
          rcases ih h with ⟨h1, h2⟩
          refine ⟨?_, ?_⟩
          · intro pe2 hpe2 id2 nt2 hid2 hel2
            rcases List.mem_cons.mp hpe2 with h3 | h3
            · subst h3
              rw [hel] at hel2
              cases hel2
              simp [hlk]
            · exact h1 pe2 h3 id2 nt2 hid2 hel2
          · rw [h2]
            simp [List.foldl_cons, specFieldStep, hid, hel, hlk]

theorem specFieldsAux_stable {tbl tbl2 : List (Nat × TreeNode)}
    (hext : ∀ k v, lookupA k tbl = some v → lookupA k tbl2 = some v) :
    ∀ (elems : List ProductionElement) (acc : List (Nat × TreeNode)),
      (∀ pe ∈ elems, ∀ id nt2, pe.identifier = some id →
        pe.element = Element.NonTerm nt2 → (lookupA nt2 tbl).isSome) →
      elems.foldl (specFieldStep tbl) acc =
        elems.foldl (specFieldStep tbl2) acc := by
  intro elems
  induction elems with
  | nil => intro acc _; rfl
  | cons pe rest ih =>
    intro acc h
    have hrest : ∀ pe2 ∈ rest, ∀ id nt2, pe2.identifier = some id →
        pe2.element = Element.NonTerm nt2 → (lookupA nt2 tbl).isSome :=
      fun pe2 h2 => h pe2 (List.mem_cons_of_mem _ h2)
    simp only [List.foldl_cons]
    have hstep : specFieldStep tbl acc pe = specFieldStep tbl2 acc pe := by
      cases hid : pe.identifier with
      | none => simp [specFieldStep, hid]
      | some id =>
        cases hel : pe.element with
        | Term t => simp [specFieldStep, hid, hel]
        | NonTerm nt =>
          have hsome := h pe (List.mem_cons_self _ _) id nt hid hel
          cases hlk : lookupA nt tbl with
          | none => rw [hlk] at hsome; simp at hsome
          | some t =>
            simp [specFieldStep, hid, hel, hlk, hext nt t hlk]
    rw [hstep]
    exact ih _ hrest

theorem specFields_stable {tbl tbl2 : List (Nat × TreeNode)}
    (hext : ∀ k v, lookupA k tbl = some v → lookupA k tbl2 = some v)
    {elems : List ProductionElement}
    (h : ∀ pe ∈ elems, ∀ id nt2, pe.identifier = some id →
      pe.element = Element.NonTerm nt2 → (lookupA nt2 tbl).isSome) :
    specFields tbl elems = specFields tbl2 elems :=
  specFieldsAux_stable hext elems [] h


/-! ### pass2once lemmas -/

theorem lookupA_insertA_isSome {β : Type _} {k k2 : Nat} {v : β}
    {m : List (Nat × β)} (h : (lookupA k m).isSome) :
    (lookupA k (insertA k2 v m)).isSome := by
  by_cases hk : k = k2
  · subst hk
    simp [lookupA_insertA_self]
  · rw [lookupA_insertA_ne _ hk]
    exact h

theorem pass2once_cons {α : Type _} (amap : List (Nat × ProdRef α))
    (nt0 : Nat) (rest : List Nat) (infos : List (Nat × TreeNode)) :
    pass2once amap (nt0 :: rest) infos =
      pass2once amap rest
        (match lookupA nt0 amap with
         | none => infos
         | some p =>
           match buildFields infos (ProdRef.prod p).elements with
           | none => infos
           | some fields =>
             insertA nt0 (TreeNode.mk (ProdRef.prod_key p) fields) infos) :=
  rfl

theorem pass2once_sorted {α : Type _} {amap : List (Nat × ProdRef α)} :
    ∀ (rem : List Nat) {infos : List (Nat × TreeNode)},
      keysSorted infos → keysSorted (pass2once amap rem infos) := by
  intro rem
  induction rem with
  | nil => intro infos h; simpa [pass2once] using h
  | cons nt0 rest ih =>
    intro infos h
    rw [pass2once_cons]
    cases hk : lookupA nt0 amap with
    | none => exact ih h
    | some p =>
      dsimp only
      cases hb : buildFields infos (ProdRef.prod p).elements with
      | none => exact ih h
      | some fields => exact ih (keysSorted_insertA _ _ h)

theorem pass2once_keeps {α : Type _} {amap : List (Nat × ProdRef α)} :
    ∀ (rem : List Nat) {infos : List (Nat × TreeNode)} {k : Nat},
      (lookupA k infos).isSome →
      (lookupA k (pass2once amap rem infos)).isSome := by
  intro rem
  induction rem with
  | nil => intro infos k h; simpa [pass2once] using h
  | cons nt0 rest ih =>
    intro infos k h
    rw [pass2once_cons]
    cases hk : lookupA nt0 amap with
    | none => exact ih h
    | some p =>
      dsimp only
      cases hb : buildFields infos (ProdRef.prod p).elements with
      | none => exact ih h
      | some fields => exact ih (lookupA_insertA_isSome h)

theorem pass2once_ext {α : Type _} {amap : List (Nat × ProdRef α)} :
    ∀ (rem : List Nat) {infos : List (Nat × TreeNode)},
      (∀ nt ∈ rem, lookupA nt infos = none) → rem.Nodup →
      ∀ {k : Nat} {v : TreeNode}, lookupA k infos = some v →
        lookupA k (pass2once amap rem infos) = some v := by
  intro rem
  induction rem with
  | nil => intro infos _ _ k v h; simpa [pass2once] using h
  | cons nt0 rest ih =>
    intro infos hfresh hnd k v h
    rcases List.nodup_cons.mp hnd with ⟨hn0, hndr⟩
    rw [pass2once_cons]
    cases hk : lookupA nt0 amap with
    | none =>
      exact ih (fun nt hnt => hfresh nt (List.mem_cons_of_mem _ hnt)) hndr h
    | some p =>
      dsimp only
      cases hb : buildFields infos (ProdRef.prod p).elements with
      | none =>
        exact ih (fun nt hnt => hfresh nt (List.mem_cons_of_mem _ hnt)) hndr h
      | some fields =>
        dsimp only
        have hne : k ≠ nt0 := by
          intro hc
          subst hc
          rw [hfresh k (List.mem_cons_self _ _)] at h
          cases h
        refine ih ?_ hndr ?_
        · intro nt hnt
          have hne2 : nt ≠ nt0 := fun hc => hn0 (hc ▸ hnt)
          rw [lookupA_insertA_ne _ hne2]
          exact hfresh nt (List.mem_cons_of_mem _ hnt)
        · rw [lookupA_insertA_ne _ hne]
          exact h

theorem pass2once_keys_new {α : Type _} {amap : List (Nat × ProdRef α)} :
    ∀ (rem : List Nat) {infos : List (Nat × TreeNode)} {k : Nat},
      (lookupA k (pass2once amap rem infos)).isSome →
      (lookupA k infos).isSome ∨ k ∈ rem := by
  intro rem
  induction rem with
  | nil => intro infos k h; exact Or.inl (by simpa [pass2once] using h)
  | cons nt0 rest ih =>
    intro infos k h
    rw [pass2once_cons] at h
    cases hk : lookupA nt0 amap with
    | none =>
      rw [hk] at h
      dsimp only at h
      rcases ih h with h2 | h2
      · exact Or.inl h2
      · exact Or.inr (List.mem_cons_of_mem _ h2)
    | some p =>
      rw [hk] at h
      dsimp only at h
      cases hb : buildFields infos (ProdRef.prod p).elements with
      | none =>
        rw [hb] at h
        dsimp only at h
        rcases ih h with h2 | h2
        · exact Or.inl h2
        · exact Or.inr (List.mem_cons_of_mem _ h2)
      | some fields =>
        rw [hb] at h
        dsimp only at h
        rcases ih h with h2 | h2
        · by_cases hke : k = nt0
          · exact Or.inr (hke ▸ List.mem_cons_self _ _)
          · rw [lookupA_insertA_ne _ hke] at h2
            exact Or.inl h2
        · exact Or.inr (List.mem_cons_of_mem _ h2)

theorem pass2once_builds {α : Type _} {amap : List (Nat × ProdRef α)} :
    ∀ (rem : List Nat) {infos : List (Nat × TreeNode)} {nt : Nat}
      {pr : ProdRef α}, nt ∈ rem → lookupA nt amap = some pr →
      (∀ pe ∈ (ProdRef.prod pr).elements, ∀ id nt2,
        pe.identifier = some id → pe.element = Element.NonTerm nt2 →
        (lookupA nt2 infos).isSome) →
      (lookupA nt (pass2once amap rem infos)).isSome := by
  intro rem
  induction rem with
  | nil => intro infos nt pr h; simp at h
  | cons nt0 rest ih =>
    intro infos nt pr hmem hk hch
    rw [pass2once_cons]
    rcases List.mem_cons.mp hmem with hmem | hmem
    · subst hmem
      rw [hk]
      dsimp only
      have hsome : (buildFields infos (ProdRef.prod pr).elements).isSome :=
        buildFieldsAux_isSome _ hch
      cases hb : buildFields infos (ProdRef.prod pr).elements with
      | none => rw [hb] at hsome; cases hsome
      | some fields =>
        dsimp only
        refine pass2once_keeps rest ?_
        simp [lookupA_insertA_self]
    · cases hk0 : lookupA nt0 amap with
      | none => exact ih hmem hk hch
      | some p0 =>
        dsimp only
        cases hb : buildFields infos (ProdRef.prod p0).elements with
        | none => exact ih hmem hk hch
        | some fields =>
          dsimp only
          refine ih hmem hk ?_
          intro pe hpe id nt2 hid hel
          exact lookupA_insertA_isSome (hch pe hpe id nt2 hid hel)

theorem pass2once_shape {α : Type _} {amap : List (Nat × ProdRef α)} :
    ∀ (rem : List Nat) {infos : List (Nat × TreeNode)},
      keysSorted infos → (∀ nt ∈ rem, lookupA nt infos = none) →
      rem.Nodup → (∀ e ∈ infos, TreeShape amap infos e) →
      ∀ e ∈ pass2once amap rem infos,
        TreeShape amap (pass2once amap rem infos) e := by
  intro rem
  induction rem with
  | nil => intro infos _ _ _ hsh; simpa [pass2once] using hsh
  | cons nt0 rest ih =>
    intro infos hsort hfresh hnd hsh
    rcases List.nodup_cons.mp hnd with ⟨hn0, hndr⟩
    have hfrest : ∀ nt ∈ rest, lookupA nt infos = none :=
      fun nt hnt => hfresh nt (List.mem_cons_of_mem _ hnt)
    rw [pass2once_cons]
    cases hk : lookupA nt0 amap with
    | none => exact ih hsort hfrest hndr hsh
    | some pr =>
      dsimp only
      cases hb : buildFields infos (ProdRef.prod pr).elements with
      | none => exact ih hsort hfrest hndr hsh
      | some fields =>
        dsimp only
        rcases buildFieldsAux_spec hb with ⟨hch, hfs⟩
        have hfr0 : lookupA nt0 infos = none :=
          hfresh nt0 (List.mem_cons_self _ _)
        have hext : ∀ k v, lookupA k infos = some v →
            lookupA k (insertA nt0
              (TreeNode.mk (ProdRef.prod_key pr) fields) infos) = some v := by
          intro k v hv
          have hne : k ≠ nt0 := by
            intro hc
            subst hc
            rw [hfr0] at hv
            cases hv
          rw [lookupA_insertA_ne _ hne]
          exact hv
        refine ih (keysSorted_insertA _ _ hsort) ?_ hndr ?_
        · intro nt hnt
          have hne2 : nt ≠ nt0 := fun hc => hn0 (hc ▸ hnt)
          rw [lookupA_insertA_ne _ hne2]
          exact hfrest nt hnt
        · intro e he
          rcases mem_insertA he with he | he
          · subst he
            refine ⟨pr, hk, ?_, ?_⟩
            · have : fields = specFields
                  (insertA nt0 (TreeNode.mk (ProdRef.prod_key pr) fields)
                    infos) (ProdRef.prod pr).elements := by
                rw [← specFields_stable hext hch]
                exact hfs
              rw [← this]
            · intro pe hpe id nt2 hid hel
              exact lookupA_insertA_isSome (hch pe hpe id nt2 hid hel)
          · rcases hsh e he with ⟨p2, hp2, htree, hch2⟩
            refine ⟨p2, hp2, ?_, ?_⟩
            · rw [htree]
              rw [specFields_stable hext hch2]
            · intro pe hpe id nt2 hid hel
              exact lookupA_insertA_isSome (hch2 pe hpe id nt2 hid hel)


/-! ### Pass-2 progress and loop termination -/

theorem pass2_progress {α : Type _} {prods : List (ProdRef α)}
    {amap : List (Nat × ProdRef α)}
    (HA2 : ∀ (nt n : Nat) (pr : ProdRef α), lookupA nt amap = some pr →
      NullableLN prods (n + 1) nt → ∀ pe ∈ (ProdRef.prod pr).elements,
      ∃ nt2, pe.element = Element.NonTerm nt2 ∧ NullableLN prods n nt2)
    (HAkeys : ∀ nt, NullableL prods nt → (lookupA nt amap).isSome) :
    ∀ (n : Nat) {rem : List Nat} {infos : List (Nat × TreeNode)} (nt : Nat),
      NullableLN prods n nt → nt ∈ rem → P2Inv prods amap rem infos →
      ∃ nt2 ∈ rem, (lookupA nt2 (pass2once amap rem infos)).isSome := by
  intro n
  induction n with
  | zero => intro rem infos nt h; simp [NullableLN] at h
  | succ n ih =>
    intro rem infos nt h hmem hinv
    have hk := hinv.rkeys nt hmem
    cases hkk : lookupA nt amap with
    | none => rw [hkk] at hk; cases hk
    | some pr =>
      by_cases hready : ∀ pe ∈ (ProdRef.prod pr).elements, ∀ id nt2,
          pe.identifier = some id → pe.element = Element.NonTerm nt2 →
          (lookupA nt2 infos).isSome
      · exact ⟨nt, hmem, pass2once_builds rem hmem hkk hready⟩
      · push_neg at hready
        obtain ⟨pe, hpe, id, nt2, hid, hel, hnot⟩ := hready
        obtain ⟨nt3, hel2, hln⟩ := HA2 nt n pr hkk h pe hpe
        rw [hel] at hel2
        cases hel2
        have hnl : NullableL prods nt2 := (nullableL_iff_LN nt2).mpr ⟨n, hln⟩
        have hak := HAkeys nt2 hnl
        have hnone : lookupA nt2 infos = none := by
          cases hl : lookupA nt2 infos with
          | none => rfl
          | some v => rw [hl] at hnot; simp at hnot
        have hmem2 : nt2 ∈ rem := by
          by_contra hcon
          have := hinv.covered nt2 hak hcon
          rw [hnone] at this
          cases this
        exact ih nt2 hln hmem2 hinv

theorem pass2loop_some {α : Type _} {prods : List (ProdRef α)}
    {amap : List (Nat × ProdRef α)}
    (HA2 : ∀ (nt n : Nat) (pr : ProdRef α), lookupA nt amap = some pr →
      NullableLN prods (n + 1) nt → ∀ pe ∈ (ProdRef.prod pr).elements,
      ∃ nt2, pe.element = Element.NonTerm nt2 ∧ NullableLN prods n nt2)
    (HAkeys : ∀ nt, NullableL prods nt → (lookupA nt amap).isSome) :
    ∀ (fuel : Nat) (rem : List Nat) (infos : List (Nat × TreeNode)),
      P2Inv prods amap rem infos → rem.length < fuel →
      ∃ tbl, pass2loop amap fuel rem infos = some tbl ∧
        keysSorted tbl ∧
        (∀ e ∈ tbl, TreeShape amap tbl e) ∧
        (∀ nt, (lookupA nt amap).isSome → (lookupA nt tbl).isSome) ∧
        (∀ nt, (lookupA nt tbl).isSome → (lookupA nt amap).isSome) := by
  intro fuel
  induction fuel with
  | zero => intro rem infos _ h; omega
  | succ fuel ih =>
    intro rem infos hinv hlen
    have hndr : rem.Nodup := hinv.rsorted.imp (fun h => Nat.ne_of_lt h)
    have hsort2 := @pass2once_sorted α amap rem _ hinv.isorted
    have hshape2 :=
      pass2once_shape rem hinv.isorted hinv.rfresh hndr hinv.ishape
    simp only [pass2loop]
    by_cases hempty : (rem.filter fun nt =>
        (lookupA nt (pass2once amap rem infos)).isNone).isEmpty
    · simp only [hempty, if_true]
      refine ⟨pass2once amap rem infos, rfl, hsort2, hshape2, ?_, ?_⟩
      · intro nt hnt
        by_cases hr : nt ∈ rem
        · by_contra hcon
          have hmem2 : nt ∈ rem.filter fun nt =>
              (lookupA nt (pass2once amap rem infos)).isNone := by
            refine List.mem_filter.mpr ⟨hr, ?_⟩
            simp only [Option.isNone_iff_eq_none]
            cases hlk : lookupA nt (pass2once amap rem infos) with
            | none => simp
            | some v => rw [hlk] at hcon; simp at hcon
          rw [List.isEmpty_iff.mp hempty] at hmem2
          simp at hmem2
        · exact pass2once_keeps rem (hinv.covered nt hnt hr)
      · intro nt hnt
        rcases pass2once_keys_new rem hnt with h2 | h2
        · exact hinv.ikeys nt h2
        · exact hinv.rkeys nt h2
    · simp only [hempty, if_false]
      have hinv2 : P2Inv prods amap
          (rem.filter fun nt => (lookupA nt (pass2once amap rem infos)).isNone)
          (pass2once amap rem infos) := by
        refine ⟨hinv.rsorted.filter _, hsort2, ?_, ?_, ?_, ?_, ?_, hshape2⟩
        · intro nt hnt
          exact hinv.rnull nt (List.mem_filter.mp hnt).1
        · intro nt hnt
          exact hinv.rkeys nt (List.mem_filter.mp hnt).1
        · intro nt hnt
          have := (List.mem_filter.mp hnt).2
          simpa [Option.isNone_iff_eq_none] using this
        · intro nt hna hnr
          by_cases hr : nt ∈ rem
          · by_contra hcon
            apply hnr
            refine List.mem_filter.mpr ⟨hr, ?_⟩
            simp only [Option.isNone_iff_eq_none]
            cases hlk : lookupA nt (pass2once amap rem infos) with
            | none => simp
            | some v => rw [hlk] at hcon; simp at hcon
          · exact pass2once_keeps rem (hinv.covered nt hna hr)
        · intro nt hnt
          rcases pass2once_keys_new rem hnt with h2 | h2
          · exact hinv.ikeys nt h2
          · exact hinv.rkeys nt h2
      have hprog : (rem.filter fun nt =>
          (lookupA nt (pass2once amap rem infos)).isNone).length
          < rem.length := by
        have hrne : rem ≠ [] := by
          intro hc
          rw [hc] at hempty
          simp at hempty
        obtain ⟨nt0, hnt0⟩ := List.exists_mem_of_ne_nil rem hrne
        obtain ⟨n, hn⟩ := hinv.rnull nt0 hnt0
        obtain ⟨ntb, hntb, hbuilt⟩ :=
          pass2_progress HA2 HAkeys n nt0 hn hnt0 hinv
        rw [List.length_filter_lt_length_iff_exists]
        refine ⟨ntb, hntb, ?_⟩
        simp only [Option.isNone_iff_eq_none]
        cases hlk : lookupA ntb (pass2once amap rem infos) with
        | none => rw [hlk] at hbuilt; simp at hbuilt
        | some v => simp
      exact ih _ _ hinv2 (by omega)


/-! ### The ok path of `calculate_nullables` -/

theorem length_one_eq {β : Type _} {l : List β} {x : β} (hlen : l.length = 1)
    (hh : l.head? = some x) : l = [x] := by
  cases l with
  | nil => simp at hlen
  | cons a rest =>
    simp at hh
    subst hh
    simp at hlen
    rw [hlen]

theorem hsing_of_find_none {α : Type _} {prods : List (ProdRef α)}
    (hfind : (inner_calculate_from prods).find?
      (fun e => e.2.length != 1) = none) :
    ∀ e ∈ inner_calculate_from prods, e.2.length = 1 := by
  intro e he
  have := List.find?_eq_none.mp hfind e he
  simpa using this

theorem amapOf_keys {α : Type _} {prods : List (ProdRef α)} {nt : Nat}
    (h : NullableL prods nt) :
    (lookupA nt (amapOf (inner_calculate_from prods))).isSome := by
  have hin := inner_key_complete h
  unfold amapOf
  rw [amap_lookup (inner_sInv prods).skeys]
  cases hl : lookupA nt (inner_calculate_from prods) with
  | none => rw [hl] at hin; simp at hin
  | some l =>
    have hne := (inner_sInv prods).snonempty _ (lookupA_mem hl)
    cases l with
    | nil => exact absurd rfl hne
    | cons a rest => simp

theorem amapOf_lookup_sing {α : Type _} {prods : List (ProdRef α)}
    (hsing : ∀ e ∈ inner_calculate_from prods, e.2.length = 1)
    {nt : Nat} {pr : ProdRef α} :
    lookupA nt (amapOf (inner_calculate_from prods)) = some pr ↔
      lookupA nt (inner_calculate_from prods) = some [pr] := by
  unfold amapOf
  rw [amap_lookup (inner_sInv prods).skeys]
  constructor
  · intro h
    cases hl : lookupA nt (inner_calculate_from prods) with
    | none => rw [hl] at h; simp at h
    | some l =>
      rw [hl] at h
      have h2 : l.head? = some pr := h
      have hlen : l.length = 1 := hsing _ (lookupA_mem hl)
      rw [length_one_eq hlen h2]
  · intro h
    rw [h]
    simp

theorem amapOf_children {α : Type _} {prods : List (ProdRef α)}
    (hnd : (prodIds prods).Nodup)
    (hsing : ∀ e ∈ inner_calculate_from prods, e.2.length = 1) :
    ∀ (nt n : Nat) (pr : ProdRef α),
      lookupA nt (amapOf (inner_calculate_from prods)) = some pr →
      NullableLN prods (n + 1) nt →
      ∀ pe ∈ (ProdRef.prod pr).elements, ∃ nt2,
        pe.element = Element.NonTerm nt2 ∧ NullableLN prods n nt2 := by
  intro nt n pr hpr hln
  have hinner := (amapOf_lookup_sing hsing).mp hpr
  simp only [NullableLN] at hln
  obtain ⟨p, hp, hh, hch⟩ := hln
  have hpn : ProdNullableL prods p := by
    constructor
    · intro pe hpe t hc
      rcases hch pe hpe with ⟨nt2, he2, _⟩
      rw [hc] at he2
      cases he2
    · intro pe hpe nt2 hc
      rcases hch pe hpe with ⟨nt3, he3, h3⟩
      rw [hc] at he3
      cases he3
      exact (nullableL_iff_LN nt2).mpr ⟨n, h3⟩
  obtain ⟨l, hl, hpl⟩ := inner_mem_complete hnd hp hpn
  rw [hh, hinner] at hl
  cases hl
  simp at hpl
  subst hpl
  exact hch

theorem calculate_ok {α : Type _} (prods : List (ProdRef α))
    (hnd : (prodIds prods).Nodup)
    (hfind : (inner_calculate_from prods).find?
      (fun e => e.2.length != 1) = none) :
    ∃ tbl, calculate_nullables_from prods = some (Except.ok tbl) ∧
      keysSorted tbl ∧
      (∀ e ∈ tbl, TreeShape (amapOf (inner_calculate_from prods)) tbl e) ∧
      (∀ nt, (lookupA nt (amapOf (inner_calculate_from prods))).isSome ↔
        (lookupA nt tbl).isSome) := by
  have hsing := hsing_of_find_none hfind
  have hinv : P2Inv prods (amapOf (inner_calculate_from prods))
      ((inner_calculate_from prods).map (·.1)) [] := by
    refine ⟨?_, ?_, ?_, ?_, ?_, ?_, ?_, ?_⟩
    · exact (List.pairwise_map).mpr ((inner_sInv prods).skeys.imp (fun h => h))
    · simp [keysSorted]
    · intro nt hnt
      rcases List.mem_map.mp hnt with ⟨e, he, heq⟩
      subst heq
      have hl : lookupA e.1 (inner_calculate_from prods) = some e.2 :=
        mem_lookupA (inner_sInv prods).skeys (by cases e; exact he)
      have hnl : NullableL prods e.1 :=
        key_sound (inner_sInv prods) (by simp [hl])
      exact (nullableL_iff_LN e.1).mp hnl
    · intro nt hnt
      rcases List.mem_map.mp hnt with ⟨e, he, heq⟩
      subst heq
      have hl : lookupA e.1 (inner_calculate_from prods) = some e.2 :=
        mem_lookupA (inner_sInv prods).skeys (by cases e; exact he)
      exact amapOf_keys (key_sound (inner_sInv prods) (by simp [hl]))
    · intro nt _
      rfl
    · intro nt hna hnr
      exfalso
      apply hnr
      unfold amapOf at hna
      rw [amap_lookup (inner_sInv prods).skeys] at hna
      cases hl : lookupA nt (inner_calculate_from prods) with
      | none => rw [hl] at hna; simp at hna
      | some l => exact List.mem_map.mpr ⟨(nt, l), lookupA_mem hl, rfl⟩
    · intro nt hnt
      simp [lookupA] at hnt
    · intro e he
      simp at he
  obtain ⟨tbl, htbl, hs, hsh, hcov, hik⟩ :=
    pass2loop_some (amapOf_children hnd hsing) (fun nt h => amapOf_keys h)
      ((((inner_calculate_from prods).map (·.1)).length) + 1)
      ((inner_calculate_from prods).map (·.1)) [] hinv (by omega)
  refine ⟨tbl, ?_, hs, hsh, fun nt => ⟨hcov nt, hik nt⟩⟩
  show calculate_nullables_from prods = some (Except.ok tbl)
  unfold calculate_nullables_from
  simp only [hfind, htbl]


/-! ### C6: both fixpoint loops terminate within their bounds -/

/-- C6: for every well-formed grammar the nullable computation terminates:
the pass-1 loop reaches a state that a further full pass leaves unchanged
(its evidence only grows and is bounded by the production count), and the
whole computation never hits the fuel-exhaustion / panic outcome (`none`):
in particular the pass-2 loop empties its remaining set within its fuel. -/
theorem nullable_terminates {α : Type _} (g : Grammar α)
    (hg : Grammar.WF g) :
    (passStep g.prods (inner_calculate_nullables g)).2 = false ∧
    calculate_nullables g ≠ none := by
  refine ⟨inner_stable g.prods, ?_⟩
  have hnd := prodIds_nodup_of_sorted hg.1
  show calculate_nullables_from g.prods ≠ none
  cases hfind : (inner_calculate_from g.prods).find?
      (fun e => e.2.length != 1) with
  | some e0 =>
    have hne0 : e0.2 ≠ [] :=
      (inner_sInv g.prods).snonempty e0 (List.mem_of_find?_eq_some hfind)
    have hne0l : e0.2.length ≠ 0 := fun hc => hne0 (List.length_eq_zero.mp hc)
    unfold calculate_nullables_from
    simp only [hfind]
    simp [hne0l]
  | none =>
    obtain ⟨tbl, htbl, _⟩ := calculate_ok g.prods hnd hfind
    rw [htbl]
    simp

/-- Witness for C6 at the chain grammar. -/
theorem nullable_terminates_witness :
    Grammar.WF gChain ∧
      ((passStep (Grammar.prods gChain)
          (inner_calculate_nullables gChain)).2 = false ∧
        calculate_nullables gChain ≠ none) :=
  ⟨by decide, nullable_terminates gChain (by decide)⟩

/-! ### C4: shape of the derivation-witness trees -/

/-- C4: on the successful outcome, every nullable nonterminal has a table
entry whose tree is labelled with the `ProdKey` of that nonterminal's
unique nullable production and whose child map is exactly the spec field
map of that production's elements over the final table: each named
nonterminal element contributes its witness tree under its binding name,
and unnamed or terminal elements contribute nothing (`specFields`). -/
theorem witness_tree_shape {α : Type _} (g : Grammar α) (hg : Grammar.WF g)
    (tbl : List (Nat × TreeNode))
    (hok : calculate_nullables g = some (Except.ok tbl))
    (nt : Nat) (hnull : NullableG g nt) :
    ∃ (tree : TreeNode) (r : Rule) (i : Nat) (p : Production),
      lookupA nt tbl = some tree ∧
      lookupA nt g.rule_set = some r ∧
      r.prods[i]? = some p ∧
      (∀ pe ∈ p.elements, ∃ nt2,
        pe.element = Element.NonTerm nt2 ∧ NullableG g nt2) ∧
      (∀ (j : Nat) (q : Production), r.prods[j]? = some q →
        (∀ pe ∈ q.elements, ∃ nt2,
          pe.element = Element.NonTerm nt2 ∧ NullableG g nt2) →
        j = i ∧ q = p) ∧
      tree = TreeNode.mk (ProdKey.mk nt p.action_key)
        (specFields tbl p.elements) ∧
      (∀ pe ∈ p.elements, ∀ id nt2, pe.identifier = some id →
        pe.element = Element.NonTerm nt2 → (lookupA nt2 tbl).isSome) := by
  have hnd := prodIds_nodup_of_sorted hg.1
  cases hfind : (inner_calculate_from g.prods).find?
      (fun e => e.2.length != 1) with
  | some e0 =>
    exfalso
    have hok2 : calculate_nullables_from g.prods =
        some (Except.ok tbl) := hok
    unfold calculate_nullables_from at hok2
    simp only [hfind] at hok2
    by_cases h0 : e0.2.length = 0
    · simp [h0] at hok2
    · simp [h0] at hok2
  | none =>
    obtain ⟨tbl0, htbl0, hs, hsh, hiff⟩ := calculate_ok g.prods hnd hfind
    have hok2 : calculate_nullables_from g.prods =
        some (Except.ok tbl) := hok
    rw [htbl0] at hok2
    injection hok2 with h1
    injection h1 with h2
    subst h2
    have hnl : NullableL g.prods nt := (nullableL_iff_nullableG hg.1 nt).mpr hnull
    have hak := amapOf_keys hnl
    have htblk := (hiff nt).mp hak
    cases htree : lookupA nt tbl0 with
    | none => rw [htree] at htblk; simp at htblk
    | some tree =>
      have hentry := lookupA_mem htree
      rcases hsh _ hentry with ⟨pr, hpk, htr, hch⟩
      have hsing := hsing_of_find_none hfind
      have hinner := (amapOf_lookup_sing hsing).mp hpk
      have hprh : ProdRef.head pr = nt :=
        (inner_sInv g.prods).sheads _ (lookupA_mem hinner) pr (by simp)
      have hev : evMem pr (inner_calculate_from g.prods) :=
        ⟨[pr], by rw [hprh]; exact hinner, by simp⟩
      obtain ⟨hprmem, hprnull⟩ := inner_mem_sound hev
      rcases (mem_prods_iff hg.1).mp hprmem with ⟨r, hr, hi, _⟩
      rw [hprh] at hr
      refine ⟨tree, r, ProdRef.idx pr, ProdRef.prod pr, rfl, hr, hi,
        ?_, ?_, ?_, hch⟩
      · intro pe hpe
        cases hel : pe.element with
        | Term t => exact absurd hel (hprnull.1 pe hpe t)
        | NonTerm nt2 =>
          exact ⟨nt2, rfl,
            (nullableL_iff_nullableG hg.1 nt2).mp (hprnull.2 pe hpe nt2 hel)⟩
      · intro j q hj hqn
        have hqmem : (ProdRef.mk nt j q
              (lookupA q.action_key g.action_map)) ∈ g.prods :=
          (mem_prods_iff hg.1).mpr ⟨r, hr, hj, rfl⟩
        have hqnl := @prodNullableL_of_specG α g hg.1
          (ProdRef.mk nt j q (lookupA q.action_key g.action_map)) hqn
        obtain ⟨l2, hl2, hql2⟩ := inner_mem_complete hnd hqmem hqnl
        rw [show ProdRef.head
            (ProdRef.mk nt j q (lookupA q.action_key g.action_map)) = nt
            from rfl] at hl2
        rw [hinner] at hl2
        cases hl2
        simp at hql2
        constructor
        · have := congrArg ProdRef.idx hql2
          simpa using this
        · have := congrArg ProdRef.prod hql2
          simpa using this
      · have htr2 : tree = TreeNode.mk (ProdRef.prod_key pr)
            (specFields tbl0 (ProdRef.prod pr).elements) := htr
        rw [htr2, show ProdRef.prod_key pr =
            ProdKey.mk nt (ProdRef.prod pr).action_key by
          simp [ProdRef.prod_key, hprh]]


/-- Witness for C4 at the chain grammar's start nonterminal. -/
theorem witness_tree_shape_witness :
    Grammar.WF gChain ∧
    calculate_nullables gChain = some (Except.ok tblChain) ∧
    (∃ (tree : TreeNode) (r : Rule) (i : Nat) (p : Production),
      lookupA 0 tblChain = some tree ∧
      lookupA 0 gChain.rule_set = some r ∧
      r.prods[i]? = some p ∧
      (∀ pe ∈ p.elements, ∃ nt2,
        pe.element = Element.NonTerm nt2 ∧ NullableG gChain nt2) ∧
      (∀ (j : Nat) (q : Production), r.prods[j]? = some q →
        (∀ pe ∈ q.elements, ∃ nt2,
          pe.element = Element.NonTerm nt2 ∧ NullableG gChain nt2) →
        j = i ∧ q = p) ∧
      tree = TreeNode.mk (ProdKey.mk 0 p.action_key)
        (specFields tblChain p.elements) ∧
      (∀ pe ∈ p.elements, ∀ id nt2, pe.identifier = some id →
        pe.element = Element.NonTerm nt2 →
        (lookupA nt2 tblChain).isSome)) := by
  have h3 : NullableG gChain 3 :=
    NullableG.mk 3 (Rule.mk 3 [Production.mk 103 []]) 0 (Production.mk 103 [])
      rfl rfl (by simp) (by simp)
  have h2 : NullableG gChain 2 :=
    NullableG.mk 2
      (Rule.mk 2 [Production.mk 102 [ProductionElement.mk (some 12) (Element.NonTerm 3)]])
      0 (Production.mk 102 [ProductionElement.mk (some 12) (Element.NonTerm 3)])
      rfl rfl
      (by
        intro pe hpe t hc
        simp at hpe
        subst hpe
        cases hc)
      (by
        intro pe hpe nt2 hc
        simp at hpe
        subst hpe
        cases hc
        exact h3)
  have h1 : NullableG gChain 1 :=
    NullableG.mk 1
      (Rule.mk 1 [Production.mk 101 [ProductionElement.mk (some 11) (Element.NonTerm 2)]])
      0 (Production.mk 101 [ProductionElement.mk (some 11) (Element.NonTerm 2)])
      rfl rfl
      (by
        intro pe hpe t hc
        simp at hpe
        subst hpe
        cases hc)
      (by
        intro pe hpe nt2 hc
        simp at hpe
        subst hpe
        cases hc
        exact h2)
  have h0 : NullableG gChain 0 :=
    NullableG.mk 0
      (Rule.mk 0 [Production.mk 100 [ProductionElement.mk (some 10) (Element.NonTerm 1)]])
      0 (Production.mk 100 [ProductionElement.mk (some 10) (Element.NonTerm 1)])
      rfl rfl
      (by
        intro pe hpe t hc
        simp at hpe
        subst hpe
        cases hc)
      (by
        intro pe hpe nt2 hc
        simp at hpe
        subst hpe
        cases hc
        exact h1)
  exact ⟨by decide, rfl,
    witness_tree_shape gChain (by decide) tblChain rfl 0 h0⟩

end Bongo
